import Mathlib

/-!
# Verification of `internal/mill/exec.go` (windmilleng/pets)

A shallow embedding of the manifest execution and module-resolution engine.

* Go strings are Lean `String`s; the character-level library routines
  (`path.Clean`, `net/url.Parse`, ...) run on the underlying `List Char`,
  one `Char` standing for one byte of the Go string.
* The collaborators that the file only calls (the process runner, `os.Stat`,
  `os.Getwd`, the remote loader, the Skylark interpreter) are fields of a record
  `Sys W` acting on an abstract world `W`.
* Every call to an effectful collaborator is appended to a trace, so that
  "is invoked once" and "is never invoked" are statements about that trace.
* A Go result pair `(value, error)` is an `Except Error value`.
-/

namespace Mill

/-! ## Data model -/

/-- Script-level values (`skylark.Value`). -/
inductive Value where
  | None : Value
  | Bool (b : Bool) : Value
  | Int (i : Int) : Value
  | String (s : String) : Value
  | List (elems : List Value) : Value
  | Tuple (elems : List Value) : Value
  | Dict (entries : List (Value × Value)) : Value
  | Builtin (name : String) : Value

/-- A `skylark.StringDict` (Go `map[string]skylark.Value`), kept as an association list. -/
abbrev StringDict := List (String × Value)

/-- Map read `d[k]`. -/
def StringDict.get (d : StringDict) (k : String) : Option Value :=
  List.lookup k d

/-- Map write `d[k] = v`: an existing key is overwritten, a new key is added. -/
def StringDict.set : StringDict → String → Value → StringDict
  | [], k, v => [(k, v)]
  | (k0, v0) :: rest, k, v =>
    if k0 = k then (k, v) :: rest else (k0, v0) :: StringDict.set rest k v

/-- The keys of a map. -/
def StringDict.keys (d : StringDict) : List String :=
  d.map Prod.fst

/-- Errors (`error` values). The constructors keep the data that the Go code formats into
the message. -/
inductive Error where
  /-- An error made with a constant message (`fmt.Errorf` without verbs). -/
  | text (msg : String) : Error
  /-- An error produced by a collaborator (operating system, runner, loader, interpreter);
  `notExist` is what `os.IsNotExist` answers for it. -/
  | external (msg : String) (notExist : Bool) : Error
  /-- The `*url.Error` of `url.Parse`. -/
  | url (op : String) (input : String) (reason : String) : Error
  /-- An error of `skylark.UnpackArgs`. -/
  | unpackArgs (msg : String) : Error
  /-- The error `"%v expects a string or list of strings; got %T (%v)"` of `argToCmd`: the
  name of the builtin and the value whose type and rendering are printed. -/
  | expectsString (builtin : String) (got : Value) : Error
  /-- The error `fmt.Errorf("load: %v", err)`. -/
  | load (cause : Error) : Error
  /-- The error `"Unknown load() strategy: %s. Available load schemes: go-get"`. -/
  | unknownStrategy (scheme : String) : Error
  /-- The error `"File %q should be a plaintext Petsfile"`. -/
  | notPlaintext (file : String) : Error
  /-- A run-time panic (a failed type assertion) rather than a returned `error`. -/
  | panic : Error

/-- The predicate `os.IsNotExist`. -/
def Error.IsNotExist : Error → Bool
  | Error.external _ ne => ne
  | _ => false

/-- A `*skylark.Builtin`; only its name is read. -/
structure Builtin where
  Name : String

/-- An `io.Writer`, identified by a handle. -/
structure Writer where
  handle : Nat
deriving DecidableEq

/-- The `*os.Process` of a started command. -/
structure Process where
  Pid : Int

/-- The handle `proc.PetsCommand` returned by the runner. -/
structure PetsCommand where
  Proc : Process

/-- A `*skylark.Thread`: its thread-local values (only strings are ever stored). -/
structure Thread where
  locals : List (String × String)

/-- The method `thread.SetLocal`. -/
def Thread.SetLocal (t : Thread) (key value : String) : Thread :=
  ⟨(key, value) :: t.locals.filter (fun kv => kv.1 != key)⟩

/-- The method `thread.Local`. -/
def Thread.Local (t : Thread) (key : String) : Option String :=
  List.lookup key t.locals

/-- Calls to effectful collaborators. -/
inductive Event where
  | RunWithIO (args : List String) (cwd : String) (stdout stderr : Writer) : Event
  | StartWithIO (args : List String) (cwd : String) (stdout stderr : Writer) : Event
  | LoadGoRepo (importPath : String) : Event
  | ExecFile (thread : Thread) (filename : String) : Event

/-- The state threaded through the program: the outside world and the trace of collaborator
calls made so far. -/
structure State (W : Type) where
  world : W
  trace : List Event

/-- The process runner `proc.Runner`. -/
structure Runner (W : Type) where
  RunWithIO : List String → String → Writer → Writer → W → Option Error × W
  StartWithIO : List String → String → Writer → Writer → W → Except Error PetsCommand × W

/-- The receiver `Petsitter`. -/
structure Petsitter (W : Type) where
  Stdout : Writer
  Stderr : Writer
  Runner : Runner W

def Petsfile : String := "Petsfile"

def threadLocalSourceFile : String := "sourceFile"

/-! ## Command translation and the `run` / `start` builtins -/

/-- The keyword loop of `skylark.UnpackArgs` for one required parameter bound to a
`*skylark.Value`: `defined` holds the value assigned so far. -/
def unpackKwargs (fnname paramName : String) :
    List (String × Value) → Option Value → Except Error (Option Value)
  | [], defined => .ok defined
  | (name, arg) :: rest, defined =>
    if paramName = name then
      match defined with
      | some _ =>
        .error (Error.unpackArgs (fnname ++ ": got multiple values for keyword argument " ++ name))
      | none => unpackKwargs fnname paramName rest (some arg)
    else
      .error (Error.unpackArgs (fnname ++ ": unexpected keyword argument " ++ name))

/-- The call `skylark.UnpackArgs(fnname, args, kwargs, paramName, &cmdV)` with one required
parameter: the result is the value stored in `cmdV`. -/
def UnpackArgs (fnname : String) (args : List Value) (kwargs : List (String × Value))
    (paramName : String) : Except Error Value :=
  if args.length > 1 then
    .error (Error.unpackArgs (fnname ++ ": got " ++ toString args.length ++
      " arguments, want at most 1"))
  else
    match unpackKwargs fnname paramName kwargs args.head? with
    | .error err => .error err
    | .ok (some v) => .ok v
    | .ok none => .error (Error.unpackArgs (fnname ++ ": missing argument for " ++ paramName))

/-- The function `argToCmd`. -/
def argToCmd (b : Builtin) (argV : Value) : Except Error (List String) :=
  match argV with
  | Value.String s => .ok ["bash", "-c", s]
  | other => .error (Error.expectsString b.Name other)

/-- The `os.FileInfo` answered by `os.Stat`. -/
structure FileInfo where
  /-- The bits of `info.Mode()`. -/
  Mode : Nat

/-- The bit `os.ModeDir`. -/
def ModeDir : Nat := 2 ^ 31

/-- The mask `os.ModeType`
(`ModeDir | ModeSymlink | ModeNamedPipe | ModeSocket | ModeDevice | ModeCharDevice | ModeIrregular`). -/
def ModeType : Nat := 2 ^ 31 ||| 2 ^ 27 ||| 2 ^ 25 ||| 2 ^ 24 ||| 2 ^ 26 ||| 2 ^ 21 ||| 2 ^ 19

/-- The method `FileMode.IsDir`. -/
def FileInfo.IsDir (info : FileInfo) : Bool :=
  info.Mode &&& ModeDir != 0

/-- The method `FileMode.IsRegular`. -/
def FileInfo.IsRegular (info : FileInfo) : Bool :=
  info.Mode &&& ModeType == 0

/-- The world-facing collaborators: `os.Getwd` (its error is dropped by the callers, which
then see the empty string), `os.Stat`, `loader.LoadGoRepo` and `skylark.ExecFile` (given the
thread and the file to execute). -/
structure Sys (W : Type) where
  Getwd : W → String
  Stat : String → W → Except Error FileInfo
  LoadGoRepo : String → W → Except Error String × W
  ExecFile : Thread → String → W → Except Error StringDict × W

/-- Append a collaborator call to the trace and install the new world. -/
def State.record {W : Type} (st : State W) (ev : Event) (w : W) : State W :=
  ⟨w, st.trace ++ [ev]⟩

/-- The builtin `Petsitter.run`. -/
def Petsitter.run {W : Type} (p : Petsitter W) (sys : Sys W) (_t : Thread) (fn : Builtin)
    (args : List Value) (kwargs : List (String × Value)) (st : State W) :
    Except Error Value × State W :=
  match UnpackArgs "cmdV" args kwargs "cmdV" with
  | .error err => (.error err, st)
  | .ok cmdV =>
    match argToCmd fn cmdV with
    | .error err => (.error err, st)
    | .ok cmdArgs =>
      let cwd := sys.Getwd st.world
      match p.Runner.RunWithIO cmdArgs cwd p.Stdout p.Stderr st.world with
      | (some err, w) => (.error err, st.record (Event.RunWithIO cmdArgs cwd p.Stdout p.Stderr) w)
      | (none, w) => (.ok Value.None, st.record (Event.RunWithIO cmdArgs cwd p.Stdout p.Stderr) w)

/-- The builtin `Petsitter.start`. -/
def Petsitter.start {W : Type} (p : Petsitter W) (sys : Sys W) (_t : Thread) (fn : Builtin)
    (args : List Value) (kwargs : List (String × Value)) (st : State W) :
    Except Error Value × State W :=
  match UnpackArgs "cmdV" args kwargs "cmdV" with
  | .error err => (.error err, st)
  | .ok cmdV =>
    match argToCmd fn cmdV with
    | .error err => (.error err, st)
    | .ok cmdArgs =>
      let cwd := sys.Getwd st.world
      match p.Runner.StartWithIO cmdArgs cwd p.Stdout p.Stderr st.world with
      | (.error err, w) =>
        (.error err, st.record (Event.StartWithIO cmdArgs cwd p.Stdout p.Stderr) w)
      | (.ok process, w) =>
        let pr := process.Proc.Pid
        (.ok (Value.Dict [(Value.String "pid", Value.Int pr)]),
          st.record (Event.StartWithIO cmdArgs cwd p.Stdout p.Stderr) w)

/-! ## The library routines `path.Clean`, `path.Join`, `filepath.Join`, `filepath.Dir`

The routines are those of a Unix system, where `filepath` has the separator `/` and no
volume names. -/

/-- The backward scan of `path.Clean` on a `..` element, after the first `out.w--`:
`for out.w > dotdot && out.index(out.w) != '/' { out.w-- }`, started at `w`. -/
def path.backtrack (buf : List Char) (dotdot : Nat) : Nat → Nat
  | 0 => 0
  | w + 1 => if w + 1 > dotdot ∧ buf.getD (w + 1) '/' ≠ '/' then path.backtrack buf dotdot w else w + 1

/-- The main loop of `path.Clean`: `rest` is `path[r:]`, `out` the bytes written so far.
Every round consumes at least one byte, so `len(path)` rounds are enough. -/
def path.cleanLoop (rooted : Bool) : Nat → List Char → List Char → Nat → List Char
  | 0, _, out, _ => out
  | _ + 1, [], out, _ => out
  | fuel + 1, c :: cs, out, dotdot =>
    if c = '/' then
      path.cleanLoop rooted fuel cs out dotdot
    else if c = '.' ∧ (cs = [] ∨ cs.head? = some '/') then
      path.cleanLoop rooted fuel cs out dotdot
    else if c = '.' ∧ cs.head? = some '.' ∧ (cs.tail = [] ∨ cs.tail.head? = some '/') then
      if out.length > dotdot then
        path.cleanLoop rooted fuel cs.tail
          (out.take (path.backtrack out dotdot (out.length - 1))) dotdot
      else if rooted = false then
        path.cleanLoop rooted fuel cs.tail
          ((if out.length > 0 then out ++ ['/'] else out) ++ ['.', '.'])
          ((if out.length > 0 then out ++ ['/'] else out) ++ ['.', '.']).length
      else
        path.cleanLoop rooted fuel cs.tail out dotdot
    else
      path.cleanLoop rooted fuel ((c :: cs).dropWhile (fun x => x != '/'))
        ((if (rooted = true ∧ out.length ≠ 1) ∨ (rooted = false ∧ out.length ≠ 0)
            then out ++ ['/'] else out) ++ (c :: cs).takeWhile (fun x => x != '/'))
        dotdot

/-- The function `path.Clean` (and `filepath.Clean` on Unix) on the bytes of the path. -/
def path.cleanChars (p : List Char) : List Char :=
  if p = [] then ['.']
  else
    let rooted : Bool := p.head? = some '/'
    let out := path.cleanLoop rooted p.length (if rooted then p.tail else p)
      (if rooted then ['/'] else []) (if rooted then 1 else 0)
    if out = [] then ['.'] else out

/-- The function `path.Join` on bytes: the elements from the first non-empty one on are
joined with `/` and cleaned. -/
def path.joinChars : List (List Char) → List Char
  | [] => []
  | e :: rest =>
    if e = [] then path.joinChars rest
    else path.cleanChars (List.intercalate ['/'] (e :: rest))

/-- The function `path.Clean`. -/
def path.Clean (p : String) : String :=
  String.mk (path.cleanChars p.data)

/-- The function `path.Join`. -/
def path.Join (elem : List String) : String :=
  String.mk (path.joinChars (elem.map String.data))

/-- The function `filepath.Join` on a Unix system, where it is the algorithm of `path.Join`. -/
def filepath.Join (elem : List String) : String :=
  String.mk (path.joinChars (elem.map String.data))

/-- The prefix `path[:i+1]` where `i` is the position of the last `/` (the empty string when
there is none). -/
def filepath.dirPart (p : List Char) : List Char :=
  (p.reverse.dropWhile (fun x => x != '/')).reverse

/-- The function `filepath.Dir` on a Unix system (no volume name). -/
def filepath.Dir (p : String) : String :=
  String.mk (path.cleanChars (filepath.dirPart p.data))

/-! ## The library routine `url.Parse`

The model follows Go's `net/url`: the fragment is cut off at the first `#`, the scheme is
split off, the query is cut off at the first `?`, and the authority and the path are parsed
and unescaped. The text before the fragment is refused when it holds a control byte, as
`net/url` does since Go 1.12; the reason of a failure is kept as a short text. -/

/-- The type `url.Userinfo`. -/
structure Userinfo where
  username : String
  password : String
  passwordSet : Bool

/-- The type `url.URL` (without the encoding hints `RawPath`, `RawFragment`, `OmitHost`). -/
structure URL where
  Scheme : String
  Opaque : String
  User : Option Userinfo
  Host : String
  Path : String
  ForceQuery : Bool
  RawQuery : String
  Fragment : String

/-- The modes of `unescape`. -/
inductive Encoding where
  | encodePath
  | encodeUserPassword
  | encodeHost
  | encodeZone
  | encodeQueryComponent
  | encodeFragment
deriving DecidableEq

/-- The call `strings.Cut(s, sep)` for a one-byte separator: the text before the first `sep`
and the text after it (all of `s` and nothing when `sep` does not occur). -/
def url.cut (sep : Char) (s : List Char) : List Char × List Char :=
  (s.takeWhile (fun x => x != sep), (s.dropWhile (fun x => x != sep)).drop 1)

/-- The split at the last `sep`, as done with `strings.LastIndex`: `s[:i]` and `s[i+1:]`. -/
def url.cutLast (sep : Char) (s : List Char) : Option (List Char × List Char) :=
  if sep ∈ s then
    some (((s.reverse.dropWhile (fun x => x != sep)).drop 1).reverse,
      (s.reverse.takeWhile (fun x => x != sep)).reverse)
  else none

/-- The function `stringContainsCTLByte`. -/
def url.stringContainsCTLByte (s : List Char) : Bool :=
  s.any (fun b => b.toNat < 32 || b.toNat == 127)

/-- The ASCII letters. -/
def url.isLetter (c : Char) : Bool :=
  ('a'.toNat ≤ c.toNat && c.toNat ≤ 'z'.toNat) || ('A'.toNat ≤ c.toNat && c.toNat ≤ 'Z'.toNat)

/-- The ASCII digits. -/
def url.isDigit (c : Char) : Bool :=
  '0'.toNat ≤ c.toNat && c.toNat ≤ '9'.toNat

/-- The loop of `getScheme` from index `i` on (`first` says whether `i == 0`); `seen` is
`rawURL[:i]`. The result is the scheme and the rest, or `none` for "missing protocol scheme". -/
def url.getSchemeLoop (rawURL : List Char) :
    Bool → List Char → List Char → Option (List Char × List Char)
  | _, _, [] => some ([], rawURL)
  | first, seen, c :: cs =>
    if url.isLetter c then url.getSchemeLoop rawURL false (seen ++ [c]) cs
    else if url.isDigit c || c = '+' || c = '-' || c = '.' then
      if first then some ([], rawURL) else url.getSchemeLoop rawURL false (seen ++ [c]) cs
    else if c = ':' then
      if first then none else some (seen, cs)
    else some ([], rawURL)

/-- The function `getScheme`. -/
def url.getScheme (rawURL : List Char) : Option (List Char × List Char) :=
  url.getSchemeLoop rawURL true [] rawURL

/-- The function `strings.ToLower` on a scheme, which holds ASCII bytes only. -/
def url.toLower (s : List Char) : List Char :=
  s.map (fun c => if 'A'.toNat ≤ c.toNat ∧ c.toNat ≤ 'Z'.toNat then Char.ofNat (c.toNat + 32) else c)

/-- The function `ishex`. -/
def url.ishex (c : Char) : Bool :=
  url.isDigit c || ('a'.toNat ≤ c.toNat && c.toNat ≤ 'f'.toNat) ||
    ('A'.toNat ≤ c.toNat && c.toNat ≤ 'F'.toNat)

/-- The function `unhex`. -/
def url.unhex (c : Char) : Nat :=
  if url.isDigit c then c.toNat - '0'.toNat
  else if 'a'.toNat ≤ c.toNat ∧ c.toNat ≤ 'f'.toNat then c.toNat - 'a'.toNat + 10
  else if 'A'.toNat ≤ c.toNat ∧ c.toNat ≤ 'F'.toNat then c.toNat - 'A'.toNat + 10
  else 0

/-- The test `shouldEscape(c, encodeHost)`: the bytes that may not appear in a host. -/
def url.shouldEscapeHost (c : Char) : Bool :=
  !(url.isLetter c || url.isDigit c ||
    c ∈ ['!', '$', '&', Char.ofNat 39, '(', ')', '*', '+', ',', ';', '=', ':', '[', ']', '<', '>',
      Char.ofNat 34] ||
    c ∈ ['-', '_', '.', '~'])

/-- The first pass of `unescape`: the check of the `%` escapes and of the host bytes. The
error is the offending text. -/
def url.unescapeCheck (mode : Encoding) : List Char → Except (List Char) Unit
  | [] => .ok ()
  | c :: rest =>
    if c = '%' then
      match rest with
      | a :: b :: rest2 =>
        if !(url.ishex a && url.ishex b) then .error (c :: rest.take 2)
        else if mode = Encoding.encodeHost ∧ url.unhex a < 8 ∧ [c, a, b] ≠ ['%', '2', '5'] then
          .error [c, a, b]
        else if mode = Encoding.encodeZone ∧ [c, a, b] ≠ ['%', '2', '5'] ∧
            url.unhex a * 16 + url.unhex b ≠ 32 ∧
            url.shouldEscapeHost (Char.ofNat (url.unhex a * 16 + url.unhex b)) then
          .error [c, a, b]
        else url.unescapeCheck mode rest2
      | _ => .error (c :: rest.take 2)
    else if (mode = Encoding.encodeHost ∨ mode = Encoding.encodeZone) ∧ c.toNat < 128 ∧
        url.shouldEscapeHost c then
      .error [c]
    else url.unescapeCheck mode rest

/-- The second pass of `unescape`: the decoding of the escapes. -/
def url.unescapeDecode (mode : Encoding) : List Char → List Char
  | [] => []
  | c :: rest =>
    if c = '%' then
      match rest with
      | a :: b :: rest2 =>
        Char.ofNat (url.unhex a * 16 + url.unhex b) :: url.unescapeDecode mode rest2
      | _ => []
    else if c = '+' ∧ mode = Encoding.encodeQueryComponent then ' ' :: url.unescapeDecode mode rest
    else c :: url.unescapeDecode mode rest

/-- The function `unescape`. -/
def url.unescape (s : List Char) (mode : Encoding) : Except String (List Char) :=
  match url.unescapeCheck mode s with
  | .error bad =>
    if bad.head? = some '%' then .error ("invalid URL escape " ++ String.mk bad)
    else .error ("invalid character in host name " ++ String.mk bad)
  | .ok _ => .ok (url.unescapeDecode mode s)

/-- The function `validOptionalPort`. -/
def url.validOptionalPort (port : List Char) : Bool :=
  match port with
  | [] => true
  | c :: rest => c = ':' && rest.all url.isDigit

/-- The function `validUserinfo`. -/
def url.validUserinfo (s : List Char) : Bool :=
  s.all (fun r => url.isLetter r || url.isDigit r ||
    r ∈ ['-', '.', '_', ':', '~', '!', '$', '&', Char.ofNat 39, '(', ')', '*', '+', ',', ';', '=',
      '%', '@'])

/-- The split of `s` at the first occurrence of `%25` (`strings.Index`): the text before it
and the text from it on. -/
def url.cutZone : List Char → Option (List Char × List Char)
  | [] => none
  | c :: cs =>
    if (c :: cs).take 3 = ['%', '2', '5'] then some ([], c :: cs)
    else (url.cutZone cs).map (fun r => (c :: r.1, r.2))

/-- The function `parseHost`. -/
def url.parseHost (host : List Char) : Except String (List Char) :=
  if host.head? = some '[' then
    match url.cutLast ']' host with
    | none => .error "missing ']' in host"
    | some (inner, colonPort) =>
      if !url.validOptionalPort colonPort then
        .error ("invalid port after host " ++ String.mk colonPort)
      else
        match url.cutZone inner with
        | some (h1, h2) =>
          match url.unescape h1 Encoding.encodeHost with
          | .error e => .error e
          | .ok host1 =>
            match url.unescape h2 Encoding.encodeZone with
            | .error e => .error e
            | .ok host2 =>
              match url.unescape (']' :: colonPort) Encoding.encodeHost with
              | .error e => .error e
              | .ok host3 => .ok (host1 ++ host2 ++ host3)
        | none => url.unescape host Encoding.encodeHost
  else
    match url.cutLast ':' host with
    | some (_, port) =>
      if !url.validOptionalPort (':' :: port) then
        .error ("invalid port after host " ++ String.mk (':' :: port))
      else url.unescape host Encoding.encodeHost
    | none => url.unescape host Encoding.encodeHost

/-- The function `parseAuthority`. -/
def url.parseAuthority (authority : List Char) : Except String (Option Userinfo × List Char) :=
  match url.cutLast '@' authority with
  | none =>
    match url.parseHost authority with
    | .error e => .error e
    | .ok host => .ok (none, host)
  | some (userinfo, hostPart) =>
    match url.parseHost hostPart with
    | .error e => .error e
    | .ok host =>
      if !url.validUserinfo userinfo then .error "net/url: invalid userinfo"
      else if ':' ∉ userinfo then
        match url.unescape userinfo Encoding.encodeUserPassword with
        | .error e => .error e
        | .ok name => .ok (some ⟨String.mk name, "", false⟩, host)
      else
        match url.unescape (url.cut ':' userinfo).1 Encoding.encodeUserPassword with
        | .error e => .error e
        | .ok name =>
          match url.unescape (url.cut ':' userinfo).2 Encoding.encodeUserPassword with
          | .error e => .error e
          | .ok password => .ok (some ⟨String.mk name, String.mk password, true⟩, host)

/-- The part of `parse` after the scheme and the query have been split off: the authority
and the path of `rest`. -/
def url.parseHier (scheme rest : List Char) (forceQuery : Bool) (rawQuery : List Char) :
    Except String URL :=
  if (scheme ≠ [] ∨ rest.take 3 ≠ ['/', '/', '/']) ∧ rest.take 2 = ['/', '/'] then
    match url.parseAuthority ((rest.drop 2).takeWhile (fun x => x != '/')) with
    | .error e => .error e
    | .ok (user, host) =>
      match url.unescape ((rest.drop 2).dropWhile (fun x => x != '/')) Encoding.encodePath with
      | .error e => .error e
      | .ok path =>
        .ok ⟨String.mk scheme, "", user, String.mk host, String.mk path, forceQuery,
          String.mk rawQuery, ""⟩
  else
    match url.unescape rest Encoding.encodePath with
    | .error e => .error e
    | .ok path =>
      .ok ⟨String.mk scheme, "", none, "", String.mk path, forceQuery, String.mk rawQuery, ""⟩

/-- The function `parse(rawURL, false)`. -/
def url.parse (rawURL : List Char) : Except String URL :=
  if url.stringContainsCTLByte rawURL then .error "net/url: invalid control character in URL"
  else if rawURL = ['*'] then .ok ⟨"", "", none, "", "*", false, "", ""⟩
  else
    match url.getScheme rawURL with
    | none => .error "missing protocol scheme"
    | some (scheme0, rest0) =>
      let scheme := url.toLower scheme0
      let forceQuery : Bool := rest0.getLast? = some '?' && rest0.count '?' == 1
      let rest := if forceQuery then rest0.dropLast else (url.cut '?' rest0).1
      let rawQuery := if forceQuery then [] else (url.cut '?' rest0).2
      if rest.head? ≠ some '/' then
        if scheme ≠ [] then
          .ok ⟨String.mk scheme, String.mk rest, none, "", "", forceQuery, String.mk rawQuery, ""⟩
        else if ':' ∈ (url.cut '/' rest).1 then
          .error "first path segment in URL cannot contain colon"
        else url.parseHier scheme rest forceQuery rawQuery
      else url.parseHier scheme rest forceQuery rawQuery

/-- The function `url.Parse` of Go's `net/url`. -/
def url.Parse (rawURL : String) : Except Error URL :=
  match url.parse (url.cut '#' rawURL.data).1 with
  | .error e => .error (Error.url "parse" (String.mk (url.cut '#' rawURL.data).1) e)
  | .ok u =>
    if (url.cut '#' rawURL.data).2 = [] then .ok u
    else
      match url.unescape (url.cut '#' rawURL.data).2 Encoding.encodeFragment with
      | .error e => .error (Error.url "parse" rawURL e)
      | .ok frag => .ok { u with Fragment := String.mk frag }

/-! ## The module resolver -/

/-- The method `Petsitter.newThread`: a thread whose local `sourceFile` is `file`. -/
def Petsitter.newThread {W : Type} (_p : Petsitter W) (file : String) : Thread :=
  (Thread.mk []).SetLocal threadLocalSourceFile file

/-- The end of `Petsitter.execPetsFileAt`, from the check `!info.Mode().IsRegular()` on:
`module` and `info` are the located file, `result` the map that holds `dir`. -/
def Petsitter.execLocated {W : Type} (p : Petsitter W) (sys : Sys W) (result : StringDict)
    (module : String) (info : FileInfo) (st : State W) : Except Error StringDict × State W :=
  if !info.IsRegular then (.error (Error.notPlaintext module), st)
  else
    match sys.ExecFile (p.newThread module) module st.world with
    | (.error err, w) => (.error err, st.record (Event.ExecFile (p.newThread module) module) w)
    | (.ok globals, w) =>
      (.ok (globals.foldl (fun r kv => r.set kv.1 kv.2) result),
        st.record (Event.ExecFile (p.newThread module) module) w)

/-- The method `Petsitter.execPetsFileAt`. -/
def Petsitter.execPetsFileAt {W : Type} (p : Petsitter W) (sys : Sys W) (module : String)
    (isMissingOk : Bool) (st : State W) : Except Error StringDict × State W :=
  match sys.Stat module st.world with
  | .error err =>
    if err.IsNotExist && isMissingOk then
      (.ok (StringDict.set [] "dir" (Value.String module)), st)
    else (.error err, st)
  | .ok info =>
    if info.IsDir then
      match sys.Stat (path.Join [module, Petsfile]) st.world with
      | .error err =>
        if err.IsNotExist && isMissingOk then
          (.ok (StringDict.set [] "dir" (Value.String module)), st)
        else (.error err, st)
      | .ok info1 =>
        p.execLocated sys (StringDict.set [] "dir" (Value.String module))
          (path.Join [module, Petsfile]) info1 st
    else
      p.execLocated sys (StringDict.set [] "dir" (Value.String module)) module info st

/-- The method `Petsitter.load`. A thread without the local `sourceFile` makes the type
assertion of the local branch panic, which is reported as `Error.panic`. -/
def Petsitter.load {W : Type} (p : Petsitter W) (sys : Sys W) (t : Thread) (module : String)
    (st : State W) : Except Error StringDict × State W :=
  match url.Parse module with
  | .error err => (.error err, st)
  | .ok u =>
    if u.Scheme = "go-get" then
      if "go-get://" ++ path.Join [u.Host, u.Path] ≠ module then
        (.error (Error.text "go-get URLs may not contain query or fragment info"), st)
      else
        match sys.LoadGoRepo (path.Join [u.Host, u.Path]) st.world with
        | (.error err, w) =>
          (.error (Error.load err), st.record (Event.LoadGoRepo (path.Join [u.Host, u.Path])) w)
        | (.ok dir, w) =>
          p.execPetsFileAt sys dir true
            (st.record (Event.LoadGoRepo (path.Join [u.Host, u.Path])) w)
    else if u.Scheme = "" then
      match t.Local threadLocalSourceFile with
      | none => (.error Error.panic, st)
      | some sourceFile =>
        p.execPetsFileAt sys (filepath.Join [filepath.Dir sourceFile, module]) false st
    else (.error (Error.unknownStrategy u.Scheme), st)

/-! ## Import strings of the scheme `go-get` -/

/-- The bytes allowed in a host name of an import string: the unreserved characters
(letters, digits, `-`, `.`, `_`, `~`). -/
def GoGet.isNameByte (c : Char) : Bool :=
  url.isLetter c || url.isDigit c || c = '-' || c = '.' || c = '_' || c = '~'

/-- The bytes allowed in a path segment of an import string: the name bytes, the
sub-delimiters, `:` and `@` (the `pchar` of RFC 3986 without escapes). -/
def GoGet.isPathByte (c : Char) : Bool :=
  GoGet.isNameByte c ||
    c ∈ ['!', '$', '&', Char.ofNat 39, '(', ')', '*', '+', ',', ';', '=', ':', '@']

/-- A host: a non-empty sequence of name bytes. -/
def GoGet.isHost (h : List Char) : Bool :=
  h ≠ [] && h.all GoGet.isNameByte

/-- A path: a `/` followed by path bytes and further `/`. -/
def GoGet.isPath (p : List Char) : Bool :=
  p.head? = some '/' && p.all (fun c => GoGet.isPathByte c || c = '/')

/-- A segment of a cleaned path: a non-empty sequence of path bytes other than `.` and `..`. -/
def GoGet.isSegment (s : List Char) : Bool :=
  s ≠ [] && s ≠ ['.'] && s ≠ ['.', '.'] && s.all GoGet.isPathByte

/-- A host that `path.Join` leaves as it is: a host other than `.` and `..`. -/
def GoGet.isCleanHost (h : List Char) : Bool :=
  GoGet.isHost h && h ≠ ['.'] && h ≠ ['.', '.']

/-- The path `/s1/s2/.../sn` made of the segments `s1`, ..., `sn`. -/
def GoGet.pathOf : List (List Char) → List Char
  | [] => []
  | s :: rest => '/' :: s ++ GoGet.pathOf rest

/-- A query component: `?` followed by bytes other than `#` and control bytes. -/
def GoGet.isQuery (q : List Char) : Bool :=
  q.head? = some '?' && !q.contains '#' && !url.stringContainsCTLByte q

/-- A fragment component: `#` followed by bytes other than control bytes whose `%` escapes
are well formed. -/
def GoGet.isFragment (f : List Char) : Bool :=
  f.head? = some '#' && !url.stringContainsCTLByte f &&
    (match url.unescapeCheck Encoding.encodeFragment f.tail with
      | .ok _ => true
      | .error _ => false)

/-- The import string `go-get://` followed by the given bytes. -/
def GoGet.importString (rest : List Char) : String :=
  String.mk ("go-get://".data ++ rest)

/-! ## Concrete hosts on which the theorems are instantiated -/

/-- A host whose runner reports no error. -/
def Demo.petsitter : Petsitter Unit :=
  ⟨⟨1⟩, ⟨2⟩, ⟨fun _ _ _ _ w => (none, w), fun _ _ _ _ w => (.ok ⟨⟨7⟩⟩, w)⟩⟩

/-- A file system in which every path is a regular file, and an interpreter for which every
manifest defines `x = 5`. -/
def Demo.sysFiles : Sys Unit :=
  ⟨fun _ => "/", fun _ _ => .ok ⟨420⟩, fun _ w => (.ok "/gopath/src/mod", w),
    fun _ _ w => (.ok [("x", Value.Int 5)], w)⟩

/-- A file system in which every path is a regular file, and an interpreter for which every
manifest defines `dir = "elsewhere"`. -/
def Demo.sysShadow : Sys Unit :=
  ⟨fun _ => "/", fun _ _ => .ok ⟨420⟩, fun _ w => (.ok "/gopath/src/mod", w),
    fun _ _ w => (.ok [("dir", Value.String "elsewhere")], w)⟩

/-- A file system in which no path exists. -/
def Demo.sysEmpty : Sys Unit :=
  ⟨fun _ => "/", fun _ _ => .error (Error.external "no such file or directory" true),
    fun _ w => (.ok "/gopath/src/mod", w), fun _ _ w => (.ok [], w)⟩

/-! ## Theorems -/

/-! ### Maps -/

theorem StringDict.get_nil (k : String) : StringDict.get [] k = none := rfl

theorem StringDict.get_cons (k0 : String) (v0 : Value) (rest : StringDict) (k : String) :
    StringDict.get ((k0, v0) :: rest) k = if k = k0 then some v0 else StringDict.get rest k := by
  by_cases h : k = k0
  · have hb : (k == k0) = true := by simpa using h
    simp [StringDict.get, List.lookup, hb, h]
  · have hb : (k == k0) = false := by simpa using h
    simp [StringDict.get, List.lookup, hb, h]

theorem StringDict.get_set (d : StringDict) (k : String) (v : Value) (k' : String) :
    (d.set k v).get k' = if k' = k then some v else d.get k' := by
  induction d with
  | nil => simp [StringDict.set, StringDict.get_cons, StringDict.get_nil]
  | cons e rest ih =>
    obtain ⟨k0, v0⟩ := e
    by_cases h0 : k0 = k
    · subst h0
      by_cases h1 : k' = k0
      · simp [StringDict.set, StringDict.get_cons, h1]
      · simp [StringDict.set, StringDict.get_cons, h1]
    · by_cases h1 : k' = k0
      · subst h1
        simp [StringDict.set, StringDict.get_cons, h0]
      · simp [StringDict.set, StringDict.get_cons, h0, h1, ih]

theorem StringDict.mem_keys_set (d : StringDict) (k : String) (v : Value) (k' : String) :
    k' ∈ (d.set k v).keys ↔ k' = k ∨ k' ∈ d.keys := by
  induction d with
  | nil => simp [StringDict.set, StringDict.keys]
  | cons e rest ih =>
    obtain ⟨k0, v0⟩ := e
    by_cases h0 : k0 = k
    · subst h0
      simp [StringDict.set, StringDict.keys]
    · simp only [StringDict.keys] at ih
      simp [StringDict.set, StringDict.keys, h0, ih]
      tauto

theorem StringDict.nodup_keys_set (d : StringDict) (k : String) (v : Value)
    (h : d.keys.Nodup) : (d.set k v).keys.Nodup := by
  induction d with
  | nil => simp [StringDict.set, StringDict.keys]
  | cons e rest ih =>
    obtain ⟨k0, v0⟩ := e
    have hrest : (StringDict.keys rest).Nodup := by
      simp only [StringDict.keys, List.map_cons, List.nodup_cons] at h
      exact h.2
    have hk0 : k0 ∉ StringDict.keys rest := by
      simp only [StringDict.keys, List.map_cons, List.nodup_cons] at h
      exact h.1
    by_cases h0 : k0 = k
    · subst h0
      simpa [StringDict.set, StringDict.keys] using h
    · have hmem : k0 ∉ (StringDict.set rest k v).keys := by
        rw [StringDict.mem_keys_set]
        simp [h0, hk0]
      have ih' := ih hrest
      simp only [StringDict.keys] at ih' hmem
      simp [StringDict.set, StringDict.keys, h0, ih', hmem]

/-- The overlay loop `for key, val := range globals { result[key] = val }`. -/
theorem StringDict.mem_keys_foldl (G : StringDict) (r : StringDict) (k : String) :
    k ∈ StringDict.keys (G.foldl (fun r kv => r.set kv.1 kv.2) r) ↔ k ∈ r.keys ∨ k ∈ G.keys := by
  induction G generalizing r with
  | nil => simp [StringDict.keys]
  | cons g rest ih =>
    simp only [List.foldl_cons]
    rw [ih, StringDict.mem_keys_set]
    simp [StringDict.keys]
    tauto

theorem StringDict.nodup_keys_foldl (G : StringDict) (r : StringDict) (h : r.keys.Nodup) :
    (StringDict.keys (G.foldl (fun r kv => r.set kv.1 kv.2) r)).Nodup := by
  induction G generalizing r with
  | nil => simpa using h
  | cons g rest ih =>
    simp only [List.foldl_cons]
    exact ih _ (StringDict.nodup_keys_set r g.1 g.2 h)

theorem StringDict.get_eq_none_of_not_mem (G : StringDict) (k : String) (h : k ∉ G.keys) :
    G.get k = none := by
  induction G with
  | nil => simp [StringDict.get, List.lookup]
  | cons g rest ih =>
    obtain ⟨k0, v0⟩ := g
    simp only [StringDict.keys, List.map_cons, List.mem_cons, not_or] at h
    have := ih (by simpa [StringDict.keys] using h.2)
    simp [StringDict.get_cons, h.1, this]

theorem StringDict.get_foldl_of_not_mem (G : StringDict) (r : StringDict) (k : String)
    (h : k ∉ G.keys) : StringDict.get (G.foldl (fun r kv => r.set kv.1 kv.2) r) k = r.get k := by
  induction G generalizing r with
  | nil => simp
  | cons g rest ih =>
    simp only [StringDict.keys, List.map_cons, List.mem_cons, not_or] at h
    simp only [List.foldl_cons]
    rw [ih _ (by simpa [StringDict.keys] using h.2), StringDict.get_set]
    simp [h.1]

theorem StringDict.get_foldl_of_mem (G : StringDict) (r : StringDict) (k : String)
    (hG : G.keys.Nodup) (h : k ∈ G.keys) :
    StringDict.get (G.foldl (fun r kv => r.set kv.1 kv.2) r) k = G.get k := by
  induction G generalizing r with
  | nil => simp [StringDict.keys] at h
  | cons g rest ih =>
    obtain ⟨k0, v0⟩ := g
    simp only [StringDict.keys, List.map_cons, List.nodup_cons] at hG
    simp only [List.foldl_cons]
    by_cases hk : k = k0
    · subst hk
      rw [StringDict.get_foldl_of_not_mem _ _ _ (by simpa [StringDict.keys] using hG.1),
        StringDict.get_set]
      simp [StringDict.get_cons]
    · have hmem : k ∈ StringDict.keys rest := by
        simp only [StringDict.keys, List.map_cons, List.mem_cons] at h
        rcases h with h | h
        · exact absurd h hk
        · simpa [StringDict.keys] using h
      rw [ih _ (by simpa [StringDict.keys] using hG.2) hmem]
      simp [StringDict.get_cons, hk]

/-! ### Bytes of import strings -/

theorem GoGet.nameByte_ne {c : Char} (h : GoGet.isNameByte c = true) :
    c ≠ '/' ∧ c ≠ '%' ∧ c ≠ '#' ∧ c ≠ '?' ∧ c ≠ '@' ∧ c ≠ ':' ∧ c ≠ '[' ∧ c ≠ '+' := by
  refine ⟨?_, ?_, ?_, ?_, ?_, ?_, ?_, ?_⟩ <;>
  · intro hc
    subst hc
    revert h
    decide

theorem GoGet.nameByte_not_ctl {c : Char} (h : GoGet.isNameByte c = true) :
    (c.toNat < 32 || c.toNat == 127) = false := by
  simp only [GoGet.isNameByte, url.isLetter, url.isDigit, Bool.or_eq_true, Bool.and_eq_true,
    decide_eq_true_eq] at h
  rcases h with ((((h | h) | h) | h) | h) | h
  · simp at h
    rcases h with h | h <;> simp <;> omega
  · simp at h
    simp
    omega
  all_goals (subst h; decide)

theorem GoGet.nameByte_host {c : Char} (h : GoGet.isNameByte c = true) :
    url.shouldEscapeHost c = false := by
  simp only [GoGet.isNameByte, Bool.or_eq_true, decide_eq_true_eq] at h
  rcases h with ((((h | h) | h) | h) | h) | h
  · simp [url.shouldEscapeHost, h]
  · simp [url.shouldEscapeHost, h]
  all_goals (subst h; decide)

theorem GoGet.pathByte_ne {c : Char} (h : GoGet.isPathByte c = true) :
    c ≠ '/' ∧ c ≠ '%' ∧ c ≠ '#' ∧ c ≠ '?' := by
  refine ⟨?_, ?_, ?_, ?_⟩ <;>
  · intro hc
    subst hc
    revert h
    decide

theorem GoGet.pathByte_not_ctl {c : Char} (h : GoGet.isPathByte c = true) :
    (c.toNat < 32 || c.toNat == 127) = false := by
  simp only [GoGet.isPathByte, Bool.or_eq_true, decide_eq_true_eq, List.mem_cons,
    List.mem_singleton, List.not_mem_nil, or_false] at h
  rcases h with h | h
  · exact GoGet.nameByte_not_ctl h
  · rcases h with h | h | h | h | h | h | h | h | h | h | h | h | h <;>
    · subst h
      decide

theorem GoGet.pathByte_of_nameByte {c : Char} (h : GoGet.isNameByte c = true) :
    GoGet.isPathByte c = true := by
  simp [GoGet.isPathByte, h]

theorem GoGet.host_not_mem (h : List Char) (hh : h.all GoGet.isNameByte = true) :
    '/' ∉ h ∧ '%' ∉ h ∧ '#' ∉ h ∧ '?' ∉ h := by
  have hall : ∀ c ∈ h, GoGet.isNameByte c = true := by simpa using hh
  exact ⟨fun hm => (GoGet.nameByte_ne (hall _ hm)).1 rfl,
    fun hm => (GoGet.nameByte_ne (hall _ hm)).2.1 rfl,
    fun hm => (GoGet.nameByte_ne (hall _ hm)).2.2.1 rfl,
    fun hm => (GoGet.nameByte_ne (hall _ hm)).2.2.2.1 rfl⟩

theorem GoGet.path_not_mem (pth : List Char)
    (hp : pth.all (fun c => GoGet.isPathByte c || c = '/') = true) :
    '%' ∉ pth ∧ '#' ∉ pth ∧ '?' ∉ pth := by
  have hall : ∀ c ∈ pth, GoGet.isPathByte c = true ∨ c = '/' := by simpa using hp
  refine ⟨fun hm => ?_, fun hm => ?_, fun hm => ?_⟩
  · rcases hall _ hm with h | h
    · exact (GoGet.pathByte_ne h).2.1 rfl
    · exact absurd h (by decide)
  · rcases hall _ hm with h | h
    · exact (GoGet.pathByte_ne h).2.2.1 rfl
    · exact absurd h (by decide)
  · rcases hall _ hm with h | h
    · exact (GoGet.pathByte_ne h).2.2.2 rfl
    · exact absurd h (by decide)

theorem GoGet.body_not_mem (h pth : List Char) (hh : h.all GoGet.isNameByte = true)
    (hp : pth.all (fun c => GoGet.isPathByte c || c = '/') = true) :
    '%' ∉ h ++ pth ∧ '#' ∉ h ++ pth ∧ '?' ∉ h ++ pth := by
  obtain ⟨_, h1, h2, h3⟩ := GoGet.host_not_mem h hh
  obtain ⟨p1, p2, p3⟩ := GoGet.path_not_mem pth hp
  simp only [List.mem_append, not_or]
  exact ⟨⟨h1, p1⟩, ⟨h2, p2⟩, ⟨h3, p3⟩⟩

theorem GoGet.body_not_ctl (h pth : List Char) (hh : h.all GoGet.isNameByte = true)
    (hp : pth.all (fun c => GoGet.isPathByte c || c = '/') = true) :
    url.stringContainsCTLByte (h ++ pth) = false := by
  have hall1 : ∀ c ∈ h, GoGet.isNameByte c = true := by simpa using hh
  have hall2 : ∀ c ∈ pth, GoGet.isPathByte c = true ∨ c = '/' := by simpa using hp
  simp only [url.stringContainsCTLByte, List.any_eq_false, List.mem_append]
  intro c hc
  rcases hc with hc | hc
  · simpa using GoGet.nameByte_not_ctl (hall1 c hc)
  · rcases hall2 c hc with h' | h'
    · simpa using GoGet.pathByte_not_ctl h'
    · subst h'
      decide

/-! ### Splitting -/

theorem url.cut_not_mem (sep : Char) (s : List Char) (h : sep ∉ s) :
    url.cut sep s = (s, []) := by
  have h1 : s.takeWhile (fun x => x != sep) = s := by
    rw [List.takeWhile_eq_self_iff]
    intro x hx
    have : x ≠ sep := fun e => h (e ▸ hx)
    simpa using this
  have h2 : s.dropWhile (fun x => x != sep) = [] := by
    rw [List.dropWhile_eq_nil_iff]
    intro x hx
    have : x ≠ sep := fun e => h (e ▸ hx)
    simpa using this
  simp [url.cut, h1, h2]

theorem url.takeWhile_append_sep (sep : Char) (a b : List Char) (h : sep ∉ a) :
    (a ++ sep :: b).takeWhile (fun x => x != sep) = a := by
  induction a with
  | nil => simp
  | cons x xs ih =>
    have hx : (x != sep) = true := by
      have : x ≠ sep := fun e => h (by simp [e])
      simpa using this
    have hxs : sep ∉ xs := fun e => h (by simp [e])
    simp [List.takeWhile_cons, hx, ih hxs]

theorem url.dropWhile_append_sep (sep : Char) (a b : List Char) (h : sep ∉ a) :
    (a ++ sep :: b).dropWhile (fun x => x != sep) = sep :: b := by
  induction a with
  | nil => simp
  | cons x xs ih =>
    have hx : (x != sep) = true := by
      have : x ≠ sep := fun e => h (by simp [e])
      simpa using this
    have hxs : sep ∉ xs := fun e => h (by simp [e])
    simp [List.dropWhile_cons, hx, ih hxs]

theorem url.cut_append_sep (sep : Char) (a b : List Char) (h : sep ∉ a) :
    url.cut sep (a ++ sep :: b) = (a, b) := by
  simp [url.cut, url.takeWhile_append_sep sep a b h, url.dropWhile_append_sep sep a b h]

theorem url.cutLast_not_mem (sep : Char) (s : List Char) (h : sep ∉ s) :
    url.cutLast sep s = none := by
  simp [url.cutLast, h]

/-! ### Unescaping text without escapes -/

theorem url.unescapeCheck_cons_ne (mode : Encoding) (c : Char) (rest : List Char)
    (hc : c ≠ '%') :
    url.unescapeCheck mode (c :: rest) =
      if (mode = Encoding.encodeHost ∨ mode = Encoding.encodeZone) ∧ c.toNat < 128 ∧
          url.shouldEscapeHost c then .error [c]
      else url.unescapeCheck mode rest := by
  rcases rest with _ | ⟨a, _ | ⟨b, rest2⟩⟩ <;> simp [url.unescapeCheck, hc]

theorem url.unescapeDecode_cons_ne (mode : Encoding) (c : Char) (rest : List Char)
    (hc : c ≠ '%') :
    url.unescapeDecode mode (c :: rest) =
      if c = '+' ∧ mode = Encoding.encodeQueryComponent then ' ' :: url.unescapeDecode mode rest
      else c :: url.unescapeDecode mode rest := by
  rcases rest with _ | ⟨a, _ | ⟨b, rest2⟩⟩ <;> simp [url.unescapeDecode, hc]

theorem url.unescapeCheck_plain (mode : Encoding) (s : List Char)
    (hpct : '%' ∉ s)
    (hhost : ∀ c ∈ s, url.shouldEscapeHost c = false) :
    url.unescapeCheck mode s = .ok () := by
  induction s with
  | nil => rfl
  | cons c rest ih =>
    have hc : c ≠ '%' := fun e => hpct (by simp [e])
    have hrest : '%' ∉ rest := fun e => hpct (by simp [e])
    have hh : url.shouldEscapeHost c = false := hhost c (by simp)
    have ih' := ih hrest (fun x hx => hhost x (by simp [hx]))
    simp [url.unescapeCheck_cons_ne mode c rest hc, hh, ih']

theorem url.unescapeCheck_path (s : List Char) (hpct : '%' ∉ s) :
    url.unescapeCheck Encoding.encodePath s = .ok () := by
  induction s with
  | nil => rfl
  | cons c rest ih =>
    have hc : c ≠ '%' := fun e => hpct (by simp [e])
    have hrest : '%' ∉ rest := fun e => hpct (by simp [e])
    simp [url.unescapeCheck_cons_ne _ c rest hc, ih hrest]

theorem url.unescapeDecode_plain (mode : Encoding) (s : List Char)
    (hpct : '%' ∉ s) (hmode : mode ≠ Encoding.encodeQueryComponent) :
    url.unescapeDecode mode s = s := by
  induction s with
  | nil => rfl
  | cons c rest ih =>
    have hc : c ≠ '%' := fun e => hpct (by simp [e])
    have hrest : '%' ∉ rest := fun e => hpct (by simp [e])
    simp [url.unescapeDecode_cons_ne mode c rest hc, hmode, ih hrest]

theorem url.unescape_host (s : List Char) (h : s.all GoGet.isNameByte = true) :
    url.unescape s Encoding.encodeHost = .ok s := by
  have hall : ∀ c ∈ s, GoGet.isNameByte c = true := by simpa using h
  have hpct : '%' ∉ s := fun hm => (GoGet.nameByte_ne (hall _ hm)).2.1 rfl
  simp [url.unescape,
    url.unescapeCheck_plain Encoding.encodeHost s hpct (fun c hc => GoGet.nameByte_host (hall c hc)),
    url.unescapeDecode_plain Encoding.encodeHost s hpct (by decide)]

theorem url.unescape_path (s : List Char) (hpct : '%' ∉ s) :
    url.unescape s Encoding.encodePath = .ok s := by
  simp [url.unescape, url.unescapeCheck_path s hpct,
    url.unescapeDecode_plain Encoding.encodePath s hpct (by decide)]

theorem url.parseAuthority_host (h : List Char) (hh : h.all GoGet.isNameByte = true) :
    url.parseAuthority h = .ok (none, h) := by
  have hall : ∀ c ∈ h, GoGet.isNameByte c = true := by simpa using hh
  have hat : '@' ∉ h := fun hm => (GoGet.nameByte_ne (hall _ hm)).2.2.2.2.1 rfl
  have hcolon : ':' ∉ h := fun hm => (GoGet.nameByte_ne (hall _ hm)).2.2.2.2.2.1 rfl
  have hbr : h.head? ≠ some '[' := by
    intro e
    cases h with
    | nil => simp at e
    | cons c cs =>
      simp at e
      exact (GoGet.nameByte_ne (hall c (by simp))).2.2.2.2.2.2.1 e
  simp [url.parseAuthority, url.cutLast_not_mem _ _ hat, url.parseHost, hbr,
    url.cutLast_not_mem _ _ hcolon, url.unescape_host h hh]

/-! ### Parsing an import string -/

theorem url.getScheme_goget (rest : List Char) :
    url.getScheme ("go-get:".data ++ rest) = some ("go-get".data, rest) := by
  rfl

theorem path.span_segment (s T : List Char) (hs : '/' ∉ s)
    (hT : T = [] ∨ T.head? = some '/') :
    (s ++ T).takeWhile (fun x => x != '/') = s ∧ (s ++ T).dropWhile (fun x => x != '/') = T := by
  rcases hT with hT | hT
  · subst hT
    have := url.cut_not_mem '/' s hs
    simp only [url.cut, Prod.mk.injEq] at this
    have h1 : s.takeWhile (fun x => x != '/') = s := this.1
    have h2 : s.dropWhile (fun x => x != '/') = [] := by
      rw [List.dropWhile_eq_nil_iff]
      intro x hx
      have : x ≠ '/' := fun e => hs (e ▸ hx)
      simpa using this
    simp [h1, h2]
  · cases T with
    | nil => simp at hT
    | cons t T' =>
      simp only [List.head?_cons, Option.some.injEq] at hT
      subst hT
      exact ⟨url.takeWhile_append_sep '/' s T' hs, url.dropWhile_append_sep '/' s T' hs⟩

theorem url.parseHier_goget (h pth : List Char) (fq : Bool) (rq : List Char)
    (hh : h.all GoGet.isNameByte = true)
    (hp : pth.all (fun c => GoGet.isPathByte c || c = '/') = true)
    (hhead : pth = [] ∨ pth.head? = some '/') :
    url.parseHier "go-get".data ('/' :: '/' :: (h ++ pth)) fq rq =
      .ok ⟨"go-get", "", none, String.mk h, String.mk pth, fq, String.mk rq, ""⟩ := by
  obtain ⟨htw, hdw⟩ := path.span_segment h pth (GoGet.host_not_mem h hh).1 hhead
  simp only [url.parseHier]
  simp [htw, hdw, url.parseAuthority_host h hh, url.unescape_path pth (GoGet.path_not_mem pth hp).1]

theorem url.getLast_mem (s : List Char) (c : Char) (h : s.getLast? = some c) : c ∈ s := by
  exact List.mem_of_getLast?_eq_some h

/-- The text left of the query: whether the query is forced (`rest` ends in its only `?`) or
cut off, what remains is the text before the first `?`. -/
theorem url.rest_of_query (a q : List Char) (ha : '?' ∉ a)
    (hq : q = [] ∨ q.head? = some '?') :
    (if ((a ++ q).getLast? = some '?' && (a ++ q).count '?' == 1) = true then (a ++ q).dropLast
      else (url.cut '?' (a ++ q)).1) = a ∧
    (q = [] → ((a ++ q).getLast? = some '?' && (a ++ q).count '?' == 1) = false ∧
      (url.cut '?' (a ++ q)).2 = []) := by
  rcases hq with hq | hq
  · subst hq
    have hlast : ¬ (a.getLast? = some '?') := fun e => ha (url.getLast_mem _ _ e)
    simp [hlast, url.cut_not_mem '?' a ha]
  · cases q with
    | nil => simp at hq
    | cons c q' =>
      simp only [List.head?_cons, Option.some.injEq] at hq
      subst hq
      refine ⟨?_, fun h => by simp at h⟩
      split
      · rename_i hforce
        simp only [Bool.and_eq_true, decide_eq_true_eq, beq_iff_eq] at hforce
        obtain ⟨hlast, hcount⟩ := hforce
        have hca : a.count '?' = 0 := List.count_eq_zero_of_not_mem ha
        have hcq : q'.count '?' = 0 := by
          simp only [List.count_append, List.count_cons_self, hca] at hcount
          omega
        have hq' : q' = [] := by
          by_contra hne
          have hl : (a ++ '?' :: q').getLast? = q'.getLast? := by
            rw [show a ++ '?' :: q' = (a ++ ['?']) ++ q' by simp]
            exact List.getLast?_append_of_ne_nil _ hne
          rw [hl] at hlast
          exact (List.count_eq_zero.mp hcq) (url.getLast_mem _ _ hlast)
        subst hq'
        rw [show a ++ ['?'] = a ++ ['?'] from rfl, List.dropLast_concat]
      · simp [url.cut_append_sep '?' a q' ha]

theorem url.toLower_goget : url.toLower "go-get".data = "go-get".data := by decide

theorem url.parse_goget (h pth q : List Char)
    (hh : h.all GoGet.isNameByte = true)
    (hp : pth.all (fun c => GoGet.isPathByte c || c = '/') = true)
    (hhead : pth = [] ∨ pth.head? = some '/')
    (hq : q = [] ∨ GoGet.isQuery q = true) :
    ∃ fq rq, url.parse ("go-get://".data ++ (h ++ pth) ++ q) =
        .ok ⟨"go-get", "", none, String.mk h, String.mk pth, fq, rq, ""⟩ ∧
      (q = [] → fq = false ∧ rq = "") := by
  have hqctl : url.stringContainsCTLByte q = false := by
    rcases hq with hq | hq
    · subst hq; rfl
    · simp only [GoGet.isQuery, Bool.and_eq_true, Bool.not_eq_true'] at hq
      exact hq.2
  have hqhead : q = [] ∨ q.head? = some '?' := by
    rcases hq with hq | hq
    · exact Or.inl hq
    · simp only [GoGet.isQuery, Bool.and_eq_true, decide_eq_true_eq] at hq
      exact Or.inr hq.1.1
  have hctl : url.stringContainsCTLByte ("go-get://".data ++ (h ++ pth) ++ q) = false := by
    have h1 := GoGet.body_not_ctl h pth hh hp
    simp only [url.stringContainsCTLByte] at h1 hqctl ⊢
    rw [List.any_append, List.any_append, h1, hqctl]
    decide
  have hstar : "go-get://".data ++ (h ++ pth) ++ q ≠ ['*'] := by
    intro e
    have := congrArg List.head? e
    simp at this
  have hscheme : url.getScheme ("go-get://".data ++ (h ++ pth) ++ q) =
      some ("go-get".data, '/' :: '/' :: (h ++ pth) ++ q) :=
    url.getScheme_goget ('/' :: '/' :: (h ++ pth) ++ q)
  have ha : '?' ∉ '/' :: '/' :: (h ++ pth) := by
    intro hm
    simp only [List.mem_cons] at hm
    rcases hm with hm | hm | hm
    · exact absurd hm (by decide)
    · exact absurd hm (by decide)
    · exact (GoGet.body_not_mem h pth hh hp).2.2 hm
  obtain ⟨hrest, hnoq⟩ := url.rest_of_query ('/' :: '/' :: (h ++ pth)) q ha hqhead
  refine ⟨(decide (('/' :: '/' :: (h ++ pth) ++ q).getLast? = some '?') &&
      List.count '?' ('/' :: '/' :: (h ++ pth) ++ q) == 1),
    String.mk (if (decide (('/' :: '/' :: (h ++ pth) ++ q).getLast? = some '?') &&
      List.count '?' ('/' :: '/' :: (h ++ pth) ++ q) == 1) = true then []
      else (url.cut '?' ('/' :: '/' :: (h ++ pth) ++ q)).2), ?_, ?_⟩
  · unfold url.parse
    simp only [hctl, hstar, hscheme, url.toLower_goget]
    simp only [Bool.false_eq_true, if_false]
    rw [hrest]
    simp only [List.head?_cons, ne_eq, not_true_eq_false, if_false]
    exact url.parseHier_goget h pth _ _ hh hp hhead
  · intro hq0
    obtain ⟨h1, h2⟩ := hnoq hq0
    refine ⟨h1, ?_⟩
    rw [h1, h2]
    rfl

theorem url.unescape_ok_of_check (mode : Encoding) (s : List Char)
    (h : url.unescapeCheck mode s = .ok ()) :
    url.unescape s mode = .ok (url.unescapeDecode mode s) := by
  simp [url.unescape, h]

/-- Parsing an import string `go-get://host/path[?query][#fragment]`: the scheme is
`go-get`, the host and the path are the given ones. -/
theorem url.Parse_goget (h pth q f : List Char)
    (hh : h.all GoGet.isNameByte = true)
    (hp : pth.all (fun c => GoGet.isPathByte c || c = '/') = true)
    (hhead : pth = [] ∨ pth.head? = some '/')
    (hq : q = [] ∨ GoGet.isQuery q = true) (hf : f = [] ∨ GoGet.isFragment f = true) :
    ∃ fq rq fr, url.Parse (GoGet.importString (h ++ pth ++ q ++ f)) =
        .ok ⟨"go-get", "", none, String.mk h, String.mk pth, fq, rq, fr⟩ ∧
      (q = [] → f = [] → fq = false ∧ rq = "" ∧ fr = "") := by
  obtain ⟨fq, rq, hparse, hnoq⟩ := url.parse_goget h pth q hh hp hhead hq
  have hhash : '#' ∉ "go-get://".data ++ (h ++ pth) ++ q := by
    intro hm
    simp only [List.mem_append] at hm
    rcases hm with (hm | hm) | hm
    · revert hm; decide
    · exact (GoGet.body_not_mem h pth hh hp).2.1 (List.mem_append.mpr hm)
    · rcases hq with hq | hq
      · subst hq; simp at hm
      · simp only [GoGet.isQuery, Bool.and_eq_true, Bool.not_eq_true'] at hq
        have := hq.1.2
        simp at this
        exact this hm
  rcases hf with hf | hf
  · subst hf
    refine ⟨fq, rq, "", ?_, fun h1 _ => ⟨(hnoq h1).1, (hnoq h1).2, rfl⟩⟩
    have hcut : url.cut '#' ("go-get://".data ++ (h ++ pth ++ q ++ [])) =
        ("go-get://".data ++ (h ++ pth) ++ q, []) := by
      rw [List.append_nil, ← List.append_assoc]
      exact url.cut_not_mem '#' _ hhash
    simp only [url.Parse, GoGet.importString, hcut, hparse]
    simp
  · cases f with
    | nil => simp [GoGet.isFragment] at hf
    | cons c f' =>
      simp only [GoGet.isFragment, List.head?_cons, List.tail_cons, Bool.and_eq_true,
        decide_eq_true_eq, Option.some.injEq] at hf
      obtain ⟨⟨hc, -⟩, hcheck⟩ := hf
      subst hc
      have hcut : url.cut '#' ("go-get://".data ++ (h ++ pth ++ q ++ '#' :: f')) =
          ("go-get://".data ++ (h ++ pth) ++ q, f') := by
        rw [← List.append_assoc, ← List.append_assoc]
        exact url.cut_append_sep '#' _ f' hhash
      have hck : url.unescapeCheck Encoding.encodeFragment f' = .ok () := by
        cases hx : url.unescapeCheck Encoding.encodeFragment f' with
        | error e => simp [hx] at hcheck
        | ok _ => rfl
      by_cases hf' : f' = []
      · subst hf'
        refine ⟨fq, rq, "", ?_, fun _ h2 => by simp at h2⟩
        simp only [url.Parse, GoGet.importString, hcut, hparse]
        simp
      · refine ⟨fq, rq, String.mk (url.unescapeDecode Encoding.encodeFragment f'), ?_,
          fun _ h2 => by simp at h2⟩
        simp only [url.Parse, GoGet.importString, hcut, hparse,
          url.unescape_ok_of_check _ _ hck]
        simp [hf']

/-! ### Cleaning a path -/

theorem path.cleanLoop_mem (rooted : Bool) (fuel : Nat) (rest out : List Char) (d : Nat)
    (c : Char) (h : c ∈ path.cleanLoop rooted fuel rest out d) :
    c ∈ rest ∨ c ∈ out ∨ c = '/' ∨ c = '.' := by
  induction fuel generalizing rest out d with
  | zero =>
    rw [path.cleanLoop] at h
    exact Or.inr (Or.inl h)
  | succ n ih =>
    cases rest with
    | nil =>
      rw [path.cleanLoop] at h
      exact Or.inr (Or.inl h)
    | cons c0 cs =>
      rw [path.cleanLoop] at h
      have htail : ∀ x, x ∈ cs.tail → x ∈ c0 :: cs := fun x hx =>
        List.mem_cons_of_mem _ (List.mem_of_mem_tail hx)
      have htake : ∀ x k, x ∈ out.take k → x ∈ out := fun x k hx => List.mem_of_mem_take hx
      have hdw : ∀ x, x ∈ (c0 :: cs).dropWhile (fun x => x != '/') → x ∈ c0 :: cs :=
        fun x hx => (List.dropWhile_sublist _).subset hx
      have htw : ∀ x, x ∈ (c0 :: cs).takeWhile (fun x => x != '/') → x ∈ c0 :: cs :=
        fun x hx => (List.takeWhile_sublist _).subset hx
      have hcs : ∀ x, x ∈ cs → x ∈ c0 :: cs := fun x hx => List.mem_cons_of_mem _ hx
      split_ifs at h
      all_goals
        rcases ih _ _ _ h with h | h | h | h
        · first
            | exact Or.inl (hcs _ h)
            | exact Or.inl (htail _ h)
            | exact Or.inl (hdw _ h)
        · try simp only [List.mem_append, List.mem_cons, List.mem_singleton, List.not_mem_nil,
            or_false] at h
          first
            | exact Or.inr (Or.inl h)
            | exact Or.inr (Or.inl (htake _ _ h))
            | (rcases h with h | h | h
               · exact Or.inr (Or.inl h)
               · exact Or.inr (Or.inr (Or.inr h))
               · exact Or.inr (Or.inr (Or.inr h)))
            | (rcases h with (h | h) | h | h
               · exact Or.inr (Or.inl h)
               · exact Or.inr (Or.inr (Or.inl h))
               · exact Or.inr (Or.inr (Or.inr h))
               · exact Or.inr (Or.inr (Or.inr h)))
            | (rcases h with (h | h) | h
               · exact Or.inr (Or.inl h)
               · exact Or.inr (Or.inr (Or.inl h))
               · exact Or.inl (htw _ h))
            | (rcases h with h | h
               · exact Or.inr (Or.inl h)
               · exact Or.inl (htw _ h))
        · exact Or.inr (Or.inr (Or.inl h))
        · exact Or.inr (Or.inr (Or.inr h))

theorem path.cleanChars_mem (p : List Char) (c : Char) (h : c ∈ path.cleanChars p) :
    c ∈ p ∨ c = '/' ∨ c = '.' := by
  unfold path.cleanChars at h
  by_cases h1 : p = []
  · simp only [h1, if_true, List.mem_singleton] at h
    exact Or.inr (Or.inr h)
  · simp only [h1, if_false] at h
    split_ifs at h
    all_goals
      first
        | (simp only [List.mem_singleton] at h
           exact Or.inr (Or.inr h))
        | (rcases path.cleanLoop_mem _ _ _ _ _ _ h with h | h | h | h
           · first
               | exact Or.inl (List.mem_of_mem_tail h)
               | exact Or.inl h
           · first
               | (simp only [List.mem_singleton] at h
                  exact Or.inr (Or.inl h))
               | exact absurd h (List.not_mem_nil _)
           · exact Or.inr (Or.inl h)
           · exact Or.inr (Or.inr h))

theorem path.intercalate_mem (sep : List Char) (L : List (List Char)) (c : Char)
    (h : c ∈ List.intercalate sep L) : (∃ e ∈ L, c ∈ e) ∨ c ∈ sep := by
  induction L with
  | nil => simp [List.intercalate] at h
  | cons x rest ih =>
    cases rest with
    | nil =>
      simp [List.intercalate] at h
      exact Or.inl ⟨x, by simp, h⟩
    | cons y zs =>
      have e : List.intercalate sep (x :: y :: zs) = x ++ sep ++ List.intercalate sep (y :: zs) := by
        simp [List.intercalate, List.intersperse]
      rw [e] at h
      simp only [List.mem_append] at h
      rcases h with (h | h) | h
      · exact Or.inl ⟨x, by simp, h⟩
      · exact Or.inr h
      · rcases ih h with ⟨e', he', hc⟩ | h
        · exact Or.inl ⟨e', List.mem_cons_of_mem _ he', hc⟩
        · exact Or.inr h

theorem path.joinChars_mem (elem : List (List Char)) (c : Char)
    (h : c ∈ path.joinChars elem) : (∃ e ∈ elem, c ∈ e) ∨ c = '/' ∨ c = '.' := by
  induction elem with
  | nil => simp [path.joinChars] at h
  | cons e rest ih =>
    rw [path.joinChars] at h
    split_ifs at h
    · rcases ih h with ⟨e', he', hc⟩ | h
      · exact Or.inl ⟨e', List.mem_cons_of_mem _ he', hc⟩
      · exact Or.inr h
    · rcases path.cleanChars_mem _ _ h with h | h
      · rcases path.intercalate_mem _ _ _ h with h | h
        · exact Or.inl h
        · simp only [List.mem_singleton] at h
          exact Or.inr (Or.inl h)
      · exact Or.inr h

theorem GoGet.segment_no_slash (s : List Char) (hs : s.all GoGet.isPathByte = true) :
    '/' ∉ s := by
  have hall : ∀ c ∈ s, GoGet.isPathByte c = true := by simpa using hs
  exact fun hm => (GoGet.pathByte_ne (hall _ hm)).1 rfl

theorem path.cleanLoop_segment (fuel : Nat) (s T out : List Char) (d : Nat)
    (hs : GoGet.isSegment s = true) (hT : T = [] ∨ T.head? = some '/') :
    path.cleanLoop false (fuel + 1) (s ++ T) out d =
      path.cleanLoop false fuel T ((if out.length ≠ 0 then out ++ ['/'] else out) ++ s) d := by
  simp only [GoGet.isSegment, Bool.and_eq_true, decide_eq_true_eq] at hs
  obtain ⟨⟨⟨hne, hdot⟩, hdotdot⟩, hall⟩ := hs
  have hslash := GoGet.segment_no_slash s hall
  obtain ⟨htw, hdw⟩ := path.span_segment s T hslash hT
  cases s with
  | nil => exact absurd rfl hne
  | cons c cs =>
    have hc : c ≠ '/' := fun e => hslash (by simp [e])
    have h2 : ¬ (c = '.' ∧ (cs ++ T = [] ∨ (cs ++ T).head? = some '/')) := by
      rintro ⟨e, h | h⟩
      · simp only [List.append_eq_nil] at h
        exact hdot (by rw [e, h.1])
      · cases cs with
        | nil => exact hdot (by rw [e])
        | cons c1 cs1 =>
          simp only [List.cons_append, List.head?_cons, Option.some.injEq] at h
          exact hslash (by simp [h])
    have h3 : ¬ (c = '.' ∧ (cs ++ T).head? = some '.' ∧
        ((cs ++ T).tail = [] ∨ (cs ++ T).tail.head? = some '/')) := by
      rintro ⟨e, h1, h⟩
      cases cs with
      | nil => exact hdot (by rw [e])
      | cons c1 cs1 =>
        simp only [List.cons_append, List.head?_cons, Option.some.injEq] at h1
        simp only [List.cons_append, List.tail_cons] at h
        rcases h with h | h
        · simp only [List.append_eq_nil] at h
          exact hdotdot (by rw [e, h1, h.1])
        · cases cs1 with
          | nil => exact hdotdot (by rw [e, h1])
          | cons c2 cs2 =>
            simp only [List.cons_append, List.head?_cons, Option.some.injEq] at h
            exact hslash (by simp [h])
    rw [List.cons_append, path.cleanLoop]
    rw [← List.cons_append, htw, hdw]
    simp only [hc, h2, h3, if_false]
    simp

theorem GoGet.pathOf_head (segs : List (List Char)) :
    GoGet.pathOf segs = [] ∨ (GoGet.pathOf segs).head? = some '/' := by
  cases segs with
  | nil => exact Or.inl rfl
  | cons s rest => exact Or.inr rfl

theorem path.cleanLoop_nil (rooted : Bool) (fuel : Nat) (out : List Char) (d : Nat) :
    path.cleanLoop rooted fuel [] out d = out := by
  cases fuel <;> rfl

theorem path.cleanLoop_slash (rooted : Bool) (fuel : Nat) (T out : List Char) (d : Nat) :
    path.cleanLoop rooted (fuel + 1) ('/' :: T) out d = path.cleanLoop rooted fuel T out d := by
  rw [path.cleanLoop]
  simp

theorem path.cleanLoop_pathOf (segs : List (List Char))
    (hsegs : ∀ s ∈ segs, GoGet.isSegment s = true) (fuel : Nat) (out : List Char) (d : Nat)
    (hfuel : (GoGet.pathOf segs).length ≤ fuel) (hout : out ≠ []) :
    path.cleanLoop false fuel (GoGet.pathOf segs) out d = out ++ GoGet.pathOf segs := by
  induction segs generalizing fuel out with
  | nil => simp [GoGet.pathOf, path.cleanLoop_nil]
  | cons s rest ih =>
    have hs : GoGet.isSegment s = true := hsegs s (by simp)
    have hslen : 1 ≤ s.length := by
      cases s with
      | nil => simp [GoGet.isSegment] at hs
      | cons c cs => simp
    simp only [GoGet.pathOf, List.length_cons, List.length_append] at hfuel
    obtain ⟨f, rfl⟩ : ∃ f, fuel = f + 2 := ⟨fuel - 2, by omega⟩
    have hlen : out.length ≠ 0 := by
      intro e
      exact hout (List.length_eq_zero.mp e)
    show path.cleanLoop false ((f + 1) + 1) ('/' :: (s ++ GoGet.pathOf rest)) out d =
      out ++ '/' :: (s ++ GoGet.pathOf rest)
    rw [path.cleanLoop_slash,
      path.cleanLoop_segment f s (GoGet.pathOf rest) out d hs (GoGet.pathOf_head rest),
      ih (fun x hx => hsegs x (by simp [hx])) f _ (by omega) (by simp [hlen])]
    simp [hlen]

theorem path.cleanChars_segments (h : List Char) (segs : List (List Char))
    (hh : GoGet.isSegment h = true) (hsegs : ∀ s ∈ segs, GoGet.isSegment s = true) :
    path.cleanChars (h ++ '/' :: GoGet.pathOf segs) = h ++ GoGet.pathOf segs := by
  have hh' := hh
  simp only [GoGet.isSegment, Bool.and_eq_true, decide_eq_true_eq] at hh'
  obtain ⟨⟨⟨hne, _⟩, _⟩, hall⟩ := hh'
  have hslash := GoGet.segment_no_slash h hall
  obtain ⟨c, cs, rfl⟩ : ∃ c cs, h = c :: cs := by
    cases h with
    | nil => exact absurd rfl hne
    | cons c cs => exact ⟨c, cs, rfl⟩
  have hc : c ≠ '/' := fun e => hslash (by simp [e])
  have hroot : ((c :: cs ++ '/' :: GoGet.pathOf segs).head? = some '/') = False := by
    simp [hc]
  unfold path.cleanChars
  simp only [List.cons_append, reduceCtorEq, if_false, List.head?_cons, Option.some.injEq, hc,
    decide_False, Bool.false_eq_true, List.length_cons, List.length_append]
  rw [← List.cons_append,
    path.cleanLoop_segment _ (c :: cs) ('/' :: GoGet.pathOf segs) [] 0 hh (Or.inr rfl)]
  obtain ⟨f, hf⟩ : ∃ f, cs.length + ((GoGet.pathOf segs).length + 1) = f + 1 := ⟨_, rfl⟩
  rw [hf, path.cleanLoop_slash,
    path.cleanLoop_pathOf segs hsegs f _ 0 (by omega) (by simp)]
  simp

theorem path.joinChars_segments (h : List Char) (segs : List (List Char))
    (hh : GoGet.isSegment h = true) (hsegs : ∀ s ∈ segs, GoGet.isSegment s = true) :
    path.joinChars [h, GoGet.pathOf segs] = h ++ GoGet.pathOf segs := by
  have hne : h ≠ [] := by
    intro e
    subst e
    simp [GoGet.isSegment] at hh
  have e : List.intercalate ['/'] [h, GoGet.pathOf segs] = h ++ '/' :: GoGet.pathOf segs := by
    simp [List.intercalate, List.intersperse]
  rw [path.joinChars]
  simp only [hne, if_false, e]
  exact path.cleanChars_segments h segs hh hsegs

theorem GoGet.path_of_segments (segs : List (List Char))
    (hsegs : ∀ s ∈ segs, GoGet.isSegment s = true) :
    (GoGet.pathOf segs).all (fun c => GoGet.isPathByte c || c = '/') = true := by
  have hseg : ∀ s, GoGet.isSegment s = true →
      s.all (fun c => GoGet.isPathByte c || c = '/') = true := by
    intro s hs
    simp only [GoGet.isSegment, Bool.and_eq_true] at hs
    have h1 : ∀ c ∈ s, GoGet.isPathByte c = true := by simpa using hs.2
    rw [List.all_eq_true]
    intro c hc
    simp [h1 c hc]
  induction segs with
  | nil => rfl
  | cons s rest ih =>
    show (('/' :: (s ++ GoGet.pathOf rest)).all _) = true
    rw [List.all_cons, List.all_append, hseg s (hsegs s (by simp)),
      ih (fun x hx => hsegs x (by simp [hx]))]
    decide

theorem GoGet.cleanHost_host (h : List Char) (hh : GoGet.isCleanHost h = true) :
    h.all GoGet.isNameByte = true := by
  simp only [GoGet.isCleanHost, GoGet.isHost, Bool.and_eq_true] at hh
  exact hh.1.1.2

theorem GoGet.cleanHost_segment (h : List Char) (hh : GoGet.isCleanHost h = true) :
    GoGet.isSegment h = true := by
  have hall : ∀ c ∈ h, GoGet.isNameByte c = true := by
    simpa using GoGet.cleanHost_host h hh
  simp only [GoGet.isCleanHost, GoGet.isHost, Bool.and_eq_true] at hh
  simp only [GoGet.isSegment, Bool.and_eq_true]
  refine ⟨⟨⟨hh.1.1.1, hh.1.2⟩, hh.2⟩, ?_⟩
  rw [List.all_eq_true]
  exact fun c hc => GoGet.pathByte_of_nameByte (hall c hc)

theorem path.Join_mk (a b : List Char) :
    path.Join [String.mk a, String.mk b] = String.mk (path.joinChars [a, b]) := rfl

theorem GoGet.reconstruct_data (a b : List Char) :
    "go-get://" ++ path.Join [String.mk a, String.mk b] =
      GoGet.importString (path.joinChars [a, b]) := by
  rw [path.Join_mk]
  rfl

/-! ### The length of a cleaned path -/

theorem path.dropWhile_head (l : List Char) :
    (l.dropWhile (fun x => x != '/')).head? = none ∨
      (l.dropWhile (fun x => x != '/')).head? = some '/' := by
  induction l with
  | nil => exact Or.inl rfl
  | cons c cs ih =>
    by_cases hc : c = '/'
    · subst hc
      exact Or.inr (by simp [List.dropWhile_cons])
    · have hb : (c != '/') = true := by simpa using hc
      simpa [List.dropWhile_cons, hb] using ih

theorem path.span_length (l : List Char) :
    (l.takeWhile (fun x => x != '/')).length + (l.dropWhile (fun x => x != '/')).length
      = l.length := by
  rw [← List.length_append, List.takeWhile_append_dropWhile]

theorem path.inv_le (rooted : Bool) (out rest : List Char) :
    out.length + rest.length +
        (if rest.head? ≠ none ∧ rest.head? ≠ some '/' ∧
            ((rooted = true ∧ out.length ≠ 1) ∨ (rooted = false ∧ out.length ≠ 0))
          then 1 else 0) ≤ out.length + rest.length + 1 := by
  split_ifs <;> omega

theorem path.inv_sep (rooted : Bool) (out rest : List Char)
    (hh : rest = [] ∨ rest.head? = some '/') :
    out.length + rest.length +
        (if rest.head? ≠ none ∧ rest.head? ≠ some '/' ∧
            ((rooted = true ∧ out.length ≠ 1) ∨ (rooted = false ∧ out.length ≠ 0))
          then 1 else 0) = out.length + rest.length := by
  rcases hh with hh | hh
  · subst hh
    simp
  · simp [hh]

/-- The loop of `path.Clean` never writes more than it has read: a separator is written only
before an element that follows a consumed `/`. -/
theorem path.cleanLoop_length (rooted : Bool) (fuel : Nat) (rest out : List Char) (d N : Nat)
    (h : out.length + rest.length +
        (if rest.head? ≠ none ∧ rest.head? ≠ some '/' ∧
            ((rooted = true ∧ out.length ≠ 1) ∨ (rooted = false ∧ out.length ≠ 0))
          then 1 else 0) ≤ N) :
    (path.cleanLoop rooted fuel rest out d).length ≤ N := by
  induction fuel generalizing rest out d with
  | zero =>
    rw [path.cleanLoop]
    omega
  | succ n ih =>
    cases rest with
    | nil =>
      rw [path.cleanLoop]
      omega
    | cons c cs =>
      rw [path.cleanLoop]
      have hdw : (c :: cs).dropWhile (fun x => x != '/') = [] ∨
          ((c :: cs).dropWhile (fun x => x != '/')).head? = some '/' := by
        rcases path.dropWhile_head (c :: cs) with h0 | h0
        · exact Or.inl (List.head?_eq_none_iff.mp h0)
        · exact Or.inr h0
      have hsp := path.span_length (c :: cs)
      simp only [List.head?_cons, ne_eq, reduceCtorEq, not_false_eq_true, Option.some.injEq,
        true_and, List.length_cons] at h hsp
      have htl : ∀ x : Char, cs.head? = some x → cs.tail.length + 1 = cs.length := by
        intro x hx
        cases cs with
        | nil => simp at hx
        | cons y ys => simp
      split_ifs with h1 h2 h3 h4 h5 h6 h7
      · apply ih
        have := path.inv_le rooted out cs
        simp only [h1, not_true_eq_false, false_and, if_false] at h
        omega
      · apply ih
        rw [path.inv_sep rooted out cs h2.2]
        omega
      · apply ih
        rw [path.inv_sep rooted _ cs.tail h3.2.2]
        have := htl _ h3.2.1
        have : (out.take (path.backtrack out d (out.length - 1))).length ≤ out.length := by
          rw [List.length_take]
          omega
        omega
      · apply ih
        rw [path.inv_sep rooted _ cs.tail h3.2.2]
        have := htl _ h3.2.1
        have hne : out.length ≠ 0 := by omega
        simp only [h1, not_false_eq_true, h5, hne, and_self, or_true, if_true, true_and,
          Bool.false_eq_true, false_and, or_false] at h
        simp only [List.length_append, List.length_cons, List.length_nil]
        omega
      · apply ih
        rw [path.inv_sep rooted _ cs.tail h3.2.2]
        have := htl _ h3.2.1
        simp only [List.length_append, List.length_cons, List.length_nil]
        omega
      · apply ih
        rw [path.inv_sep rooted _ cs.tail h3.2.2]
        have := htl _ h3.2.1
        omega
      · apply ih
        rw [path.inv_sep rooted _ _ hdw]
        simp only [h1, not_false_eq_true, true_and] at h
        rw [if_pos (by simpa using h7)] at h
        simp only [List.length_append, List.length_cons, List.length_nil]
        omega
      · apply ih
        rw [path.inv_sep rooted _ _ hdw]
        simp only [List.length_append]
        omega

theorem path.cleanChars_length (p : List Char) (hp : p ≠ []) :
    (path.cleanChars p).length ≤ p.length := by
  have hlen : 1 ≤ p.length := by
    cases p with
    | nil => exact absurd rfl hp
    | cons c cs => simp
  unfold path.cleanChars
  simp only [hp, if_false]
  split_ifs
  all_goals
    first
      | (simpa using hlen)
      | (apply path.cleanLoop_length
         cases p with
         | nil => exact absurd rfl hp
         | cons c cs =>
           simp only [List.tail_cons, List.length_cons, List.length_nil]
           split_ifs <;> simp_all <;> omega)

theorem path.joinChars_pair_length (a b : List Char) :
    (path.joinChars [a, b]).length ≤ a.length + b.length + 1 := by
  by_cases ha : a = []
  · by_cases hb : b = []
    · simp [path.joinChars, ha, hb]
    · have := path.cleanChars_length b hb
      simp only [path.joinChars, ha, hb, if_true, if_false, List.intercalate,
        List.intersperse, List.flatten, List.append_nil, List.length_nil]
      omega
  · have e : List.intercalate ['/'] [a, b] = a ++ '/' :: b := by
      simp [List.intercalate, List.intersperse]
    have hne : a ++ '/' :: b ≠ [] := by simp
    have := path.cleanChars_length _ hne
    simp only [path.joinChars, ha, if_false, e]
    simp only [List.length_append, List.length_cons] at this
    omega

/-! ### What `url.Parse` returns -/

theorem url.unescapeCheck_pct (mode : Encoding) (a b : Char) (rest2 : List Char)
    (h : url.unescapeCheck mode ('%' :: a :: b :: rest2) = .ok ()) :
    url.unescapeCheck mode rest2 = .ok () := by
  simp only [url.unescapeCheck, if_true] at h
  split_ifs at h
  exact h

theorem url.unescapeCheck_pct_short (mode : Encoding) (rest : List Char)
    (hshort : rest.length < 2) :
    url.unescapeCheck mode ('%' :: rest) ≠ .ok () := by
  rcases rest with _ | ⟨a, _ | ⟨b, rest2⟩⟩
  · simp [url.unescapeCheck]
  · simp [url.unescapeCheck]
  · simp only [List.length_cons] at hshort
    omega

theorem url.unescapeDecode_pct (mode : Encoding) (a b : Char) (rest2 : List Char) :
    url.unescapeDecode mode ('%' :: a :: b :: rest2) =
      Char.ofNat (url.unhex a * 16 + url.unhex b) :: url.unescapeDecode mode rest2 := by
  simp [url.unescapeDecode]

/-- Decoding never lengthens a text, and every escape shortens it by two bytes. -/
theorem url.unescapeDecode_length (mode : Encoding) (n : Nat) (s : List Char)
    (hn : s.length ≤ n) (h : url.unescapeCheck mode s = .ok ()) :
    (url.unescapeDecode mode s).length ≤ s.length ∧
      ('%' ∈ s → (url.unescapeDecode mode s).length + 2 ≤ s.length) := by
  induction n generalizing s with
  | zero =>
    have : s = [] := List.length_eq_zero.mp (Nat.le_zero.mp hn)
    subst this
    simp [url.unescapeDecode]
  | succ k ih =>
    cases s with
    | nil => simp [url.unescapeDecode]
    | cons c rest =>
      by_cases hc : c = '%'
      · subst hc
        rcases rest with _ | ⟨a, _ | ⟨b, rest2⟩⟩
        · exact absurd h (url.unescapeCheck_pct_short mode [] (by simp))
        · exact absurd h (url.unescapeCheck_pct_short mode [a] (by simp))
        · have h2 := url.unescapeCheck_pct mode a b rest2 h
          simp only [List.length_cons] at hn
          obtain ⟨i1, _⟩ := ih rest2 (by omega) h2
          rw [url.unescapeDecode_pct]
          simp only [List.length_cons]
          exact ⟨by omega, fun _ => by omega⟩
      · rw [url.unescapeCheck_cons_ne mode c rest hc] at h
        have h2 : url.unescapeCheck mode rest = .ok () := by
          split_ifs at h
          exact h
        simp only [List.length_cons] at hn
        obtain ⟨i1, i2⟩ := ih rest (by omega) h2
        rw [url.unescapeDecode_cons_ne mode c rest hc]
        have hmem : '%' ∈ c :: rest → '%' ∈ rest := by
          intro hm
          rcases List.mem_cons.mp hm with e | e
          · exact absurd e.symm hc
          · exact e
        split_ifs
        · simp only [List.length_cons]
          exact ⟨by omega, fun hm => by have := i2 (hmem hm); omega⟩
        · simp only [List.length_cons]
          exact ⟨by omega, fun hm => by have := i2 (hmem hm); omega⟩

/-- What a successful `unescape` returns (in the modes used by `url.Parse`). -/
theorem url.unescape_ok (s : List Char) (mode : Encoding) (r : List Char)
    (hmode : mode ≠ Encoding.encodeQueryComponent)
    (h : url.unescape s mode = .ok r) :
    r.length ≤ s.length ∧ ('%' ∈ s → r.length + 2 ≤ s.length) ∧ ('%' ∉ s → r = s) := by
  unfold url.unescape at h
  cases hck : url.unescapeCheck mode s with
  | error bad =>
    simp only [hck] at h
    split_ifs at h
  | ok x =>
    simp only [hck] at h
    have hr : r = url.unescapeDecode mode s := by
      injection h with h
      exact h.symm
    subst hr
    obtain ⟨i1, i2⟩ := url.unescapeDecode_length mode s.length s le_rfl hck
    exact ⟨i1, i2, fun hno => url.unescapeDecode_plain mode s hno hmode⟩

theorem url.dropWhile_sep (sep : Char) (l : List Char) :
    l.dropWhile (fun x => x != sep) = [] ∨
      ∃ t, l.dropWhile (fun x => x != sep) = sep :: t := by
  induction l with
  | nil => exact Or.inl rfl
  | cons c cs ih =>
    by_cases hc : c = sep
    · subst hc
      exact Or.inr ⟨cs, by simp [List.dropWhile_cons]⟩
    · have hb : (c != sep) = true := by simpa using hc
      simpa [List.dropWhile_cons, hb] using ih

theorem url.takeWhile_not_mem (sep : Char) (l : List Char) :
    sep ∉ l.takeWhile (fun x => x != sep) := by
  intro hm
  have := List.mem_takeWhile_imp hm
  simp at this

/-- The two results of `url.cut`. -/
theorem url.cut_spec (sep : Char) (s : List Char) :
    (sep ∉ s ∧ url.cut sep s = (s, [])) ∨
      ∃ a b, s = a ++ sep :: b ∧ sep ∉ a ∧ url.cut sep s = (a, b) := by
  by_cases hm : sep ∈ s
  · right
    rcases url.dropWhile_sep sep s with h0 | ⟨t, ht⟩
    · exfalso
      rw [List.dropWhile_eq_nil_iff] at h0
      have := h0 sep hm
      simp at this
    · refine ⟨s.takeWhile (fun x => x != sep), t, ?_, url.takeWhile_not_mem sep s, ?_⟩
      · rw [← ht, List.takeWhile_append_dropWhile]
      · simp [url.cut, ht]
  · exact Or.inl ⟨hm, url.cut_not_mem sep s hm⟩

theorem url.cutLast_spec (sep : Char) (s a b : List Char)
    (h : url.cutLast sep s = some (a, b)) : s = a ++ sep :: b := by
  unfold url.cutLast at h
  split_ifs at h with hm
  simp only [Option.some.injEq, Prod.mk.injEq] at h
  obtain ⟨ha, hb⟩ := h
  have hrev : s.reverse = s.reverse.takeWhile (fun x => x != sep) ++
      s.reverse.dropWhile (fun x => x != sep) := (List.takeWhile_append_dropWhile _ _).symm
  rcases url.dropWhile_sep sep s.reverse with h0 | ⟨t, ht⟩
  · exfalso
    rw [List.dropWhile_eq_nil_iff] at h0
    have := h0 sep (List.mem_reverse.mpr hm)
    simp at this
  · rw [ht] at hrev ha
    simp only [List.drop_succ_cons, List.drop_zero] at ha
    have := congrArg List.reverse hrev
    simp only [List.reverse_reverse, List.reverse_append, List.reverse_cons,
      List.append_assoc, List.singleton_append] at this
    rw [this, ha, hb]

theorem url.cutZone_spec (s a b : List Char) (h : url.cutZone s = some (a, b)) :
    s = a ++ b ∧ '%' ∈ b := by
  induction s generalizing a b with
  | nil => simp [url.cutZone] at h
  | cons c cs ih =>
    rw [url.cutZone] at h
    split_ifs at h with h3
    · simp only [Option.some.injEq, Prod.mk.injEq] at h
      obtain ⟨ha, hb⟩ := h
      subst ha hb
      refine ⟨rfl, ?_⟩
      have : (c :: cs).take 3 = c :: cs.take 2 := by simp
      rw [this] at h3
      simp only [List.cons.injEq] at h3
      simp [h3.1]
    · cases hz : url.cutZone cs with
      | none => simp [hz] at h
      | some r =>
        simp only [hz, Option.map_some', Option.some.injEq, Prod.mk.injEq] at h
        obtain ⟨ha, hb⟩ := h
        obtain ⟨h1, h2⟩ := ih r.1 r.2 hz
        subst ha hb
        exact ⟨by rw [h1]; rfl, h2⟩

/-- What a successful `parseHost` returns, compared with its input. -/
theorem url.parseHost_ok (host r : List Char) (h : url.parseHost host = .ok r) :
    r.length ≤ host.length ∧ ('%' ∈ host → r.length + 2 ≤ host.length) ∧
      ('%' ∉ host → r = host) := by
  have hfinal : ∀ r', url.unescape host Encoding.encodeHost = .ok r' →
      r'.length ≤ host.length ∧ ('%' ∈ host → r'.length + 2 ≤ host.length) ∧
        ('%' ∉ host → r' = host) :=
    fun r' h' => url.unescape_ok host Encoding.encodeHost r' (by decide) h'
  unfold url.parseHost at h
  split_ifs at h with hbr
  · cases hcl : url.cutLast ']' host with
    | none => simp [hcl] at h
    | some ab =>
      obtain ⟨inner, colonPort⟩ := ab
      simp only [hcl] at h
      have hhost := url.cutLast_spec ']' host inner colonPort hcl
      split_ifs at h with hport
      cases hz : url.cutZone inner with
      | none =>
        simp only [hz] at h
        exact hfinal r h
      | some z =>
        obtain ⟨h1, h2⟩ := z
        simp only [hz] at h
        obtain ⟨hin, hpct⟩ := url.cutZone_spec inner h1 h2 hz
        cases e1 : url.unescape h1 Encoding.encodeHost with
        | error e => simp [e1] at h
        | ok r1 =>
          cases e2 : url.unescape h2 Encoding.encodeZone with
          | error e => simp [e1, e2] at h
          | ok r2 =>
            cases e3 : url.unescape (']' :: colonPort) Encoding.encodeHost with
            | error e => simp [e1, e2, e3] at h
            | ok r3 =>
              simp only [e1, e2, e3] at h
              injection h with h
              subst h
              obtain ⟨a1, _, _⟩ := url.unescape_ok h1 _ r1 (by decide) e1
              obtain ⟨_, a2, _⟩ := url.unescape_ok h2 _ r2 (by decide) e2
              obtain ⟨a3, _, _⟩ := url.unescape_ok (']' :: colonPort) _ r3 (by decide) e3
              have a2' := a2 hpct
              have hlen : host.length = h1.length + h2.length + (colonPort.length + 1) := by
                rw [hhost, hin]
                simp only [List.length_append, List.length_cons]
              simp only [List.length_cons] at a3
              simp only [List.length_append]
              refine ⟨by omega, fun _ => by omega, fun hno => ?_⟩
              exfalso
              apply hno
              rw [hhost, hin]
              simp [hpct]
  · cases hcl : url.cutLast ':' host with
    | none =>
      simp only [hcl] at h
      exact hfinal r h
    | some ab =>
      simp only [hcl] at h
      split_ifs at h
      exact hfinal r h

/-- What a successful `parseAuthority` returns as host, compared with its input. -/
theorem url.parseAuthority_ok (authority r : List Char) (user : Option Userinfo)
    (h : url.parseAuthority authority = .ok (user, r)) :
    r.length ≤ authority.length ∧ ('%' ∈ authority → r.length + 2 ≤ authority.length) ∧
      ('%' ∉ authority → ∀ c ∈ r, c ∈ authority) := by
  unfold url.parseAuthority at h
  cases hcl : url.cutLast '@' authority with
  | none =>
    simp only [hcl] at h
    cases hp : url.parseHost authority with
    | error e => simp [hp] at h
    | ok host =>
      simp only [hp] at h
      injection h with h
      simp only [Prod.mk.injEq] at h
      obtain ⟨_, hr⟩ := h
      subst hr
      obtain ⟨a1, a2, a3⟩ := url.parseHost_ok authority host hp
      exact ⟨a1, a2, fun hno c hc => by rw [a3 hno] at hc; exact hc⟩
  | some ab =>
    obtain ⟨userinfo, hostPart⟩ := ab
    simp only [hcl] at h
    have hauth := url.cutLast_spec '@' authority userinfo hostPart hcl
    cases hp : url.parseHost hostPart with
    | error e => simp [hp] at h
    | ok host =>
      simp only [hp] at h
      have hr : r = host := by
        split_ifs at h
        all_goals
          split at h
          · cases h
          · first
              | (injection h with h
                 simp only [Prod.mk.injEq] at h
                 exact h.2.symm)
              | (split at h
                 · cases h
                 · injection h with h
                   simp only [Prod.mk.injEq] at h
                   exact h.2.symm)
      subst hr
      obtain ⟨a1, a2, a3⟩ := url.parseHost_ok hostPart r hp
      have hlen : authority.length = userinfo.length + (hostPart.length + 1) := by
        rw [hauth]
        simp only [List.length_append, List.length_cons]
      refine ⟨by omega, fun hm => ?_, fun hno c hc => ?_⟩
      · rw [hauth] at hm
        simp only [List.mem_append, List.mem_cons] at hm
        rcases hm with hm | hm | hm
        · have : 1 ≤ userinfo.length := List.length_pos_of_mem hm
          omega
        · exact absurd hm (by decide)
        · have := a2 hm
          omega
      · have hnoh : '%' ∉ hostPart := by
          intro hm
          apply hno
          rw [hauth]
          simp [hm]
        rw [a3 hnoh] at hc
        rw [hauth]
        simp [hc]

theorem url.getSchemeLoop_spec (raw : List Char) (first : Bool) (seen rest s0 r0 : List Char)
    (h : url.getSchemeLoop raw first seen rest = some (s0, r0)) (hs : s0 ≠ []) :
    seen ++ rest = s0 ++ ':' :: r0 := by
  induction rest generalizing first seen with
  | nil =>
    simp only [url.getSchemeLoop, Option.some.injEq, Prod.mk.injEq] at h
    exact absurd h.1.symm hs
  | cons c cs ih =>
    rw [url.getSchemeLoop] at h
    split_ifs at h with h1 h2 h3 h4 h5
    · have := ih false (seen ++ [c]) h
      simpa using this
    · simp only [Option.some.injEq, Prod.mk.injEq] at h
      exact absurd h.1.symm hs
    · have := ih false (seen ++ [c]) h
      simpa using this
    · simp only [Option.some.injEq, Prod.mk.injEq] at h
      rw [← h.1, ← h.2, h4]
    · simp only [Option.some.injEq, Prod.mk.injEq] at h
      exact absurd h.1.symm hs

theorem url.toLower_goget_inv (s0 : List Char) (h : url.toLower s0 = "go-get".data) :
    s0.length = 6 ∧ '?' ∉ s0 := by
  constructor
  · have := congrArg List.length h
    simpa [url.toLower] using this
  · intro hm
    have hmap : (if 'A'.toNat ≤ '?'.toNat ∧ '?'.toNat ≤ 'Z'.toNat
        then Char.ofNat ('?'.toNat + 32) else '?') ∈ url.toLower s0 :=
      List.mem_map.mpr ⟨'?', hm, rfl⟩
    rw [h] at hmap
    revert hmap
    decide

theorem url.parseHier_scheme (scheme rest : List Char) (fq : Bool) (rq : List Char) (u : URL)
    (h : url.parseHier scheme rest fq rq = .ok u) : u.Scheme = String.mk scheme := by
  unfold url.parseHier at h
  split_ifs at h
  · split at h
    · cases h
    · split at h
      · cases h
      · injection h with h
        rw [← h]
  · split at h
    · cases h
    · injection h with h
      rw [← h]

/-- The host and the path that `parseHier` returns for a text with an authority. -/
theorem url.parseHier_ok (scheme rest : List Char) (fq : Bool) (rq : List Char) (u : URL)
    (h : url.parseHier scheme rest fq rq = .ok u) (hs : scheme ≠ []) :
    rest.take 2 ≠ ['/', '/'] ∨
    ∃ auth pp host path, rest = '/' :: '/' :: (auth ++ pp) ∧
      u.Host = String.mk host ∧ u.Path = String.mk path ∧
      host.length ≤ auth.length ∧ ('%' ∈ auth → host.length + 2 ≤ auth.length) ∧
      ('%' ∉ auth → ∀ c ∈ host, c ∈ auth) ∧
      path.length ≤ pp.length ∧ ('%' ∈ pp → path.length + 2 ≤ pp.length) ∧
      ('%' ∉ pp → path = pp) := by
  by_cases h2 : rest.take 2 = ['/', '/']
  · right
    have hrest : rest = '/' :: '/' :: rest.drop 2 := by
      have := List.take_append_drop 2 rest
      rw [h2] at this
      exact this.symm
    unfold url.parseHier at h
    simp only [hs, ne_eq, not_false_eq_true, true_or, h2, and_self, if_true] at h
    cases ha : url.parseAuthority ((rest.drop 2).takeWhile (fun x => x != '/')) with
    | error e => simp [ha] at h
    | ok r =>
      obtain ⟨user, host⟩ := r
      simp only [ha] at h
      cases hp : url.unescape ((rest.drop 2).dropWhile (fun x => x != '/'))
          Encoding.encodePath with
      | error e => simp [hp] at h
      | ok path =>
        simp only [hp] at h
        injection h with h
        obtain ⟨a1, a2, a3⟩ := url.parseAuthority_ok _ host user ha
        obtain ⟨p1, p2, p3⟩ := url.unescape_ok _ _ path (by decide) hp
        refine ⟨_, _, host, path, ?_, by rw [← h], by rw [← h], a1, a2, a3, p1, p2, p3⟩
        rw [List.takeWhile_append_dropWhile]
        exact hrest
  · exact Or.inl h2

/-- The shape of a text that `parse` accepts with the scheme `go-get`. -/
theorem url.parse_goget_shape (u0 : List Char) (u : URL) (h : url.parse u0 = .ok u)
    (hs : u.Scheme = "go-get") :
    ∃ s0 rest tailq, u0 = s0 ++ ':' :: (rest ++ tailq) ∧ s0.length = 6 ∧ '?' ∉ s0 ∧
      '?' ∉ rest ∧ (tailq = [] ∨ tailq.head? = some '?') ∧
      (rest.take 2 ≠ ['/', '/'] ∨
        ∃ auth pp host path, rest = '/' :: '/' :: (auth ++ pp) ∧
          u.Host = String.mk host ∧ u.Path = String.mk path ∧
          host.length ≤ auth.length ∧ ('%' ∈ auth → host.length + 2 ≤ auth.length) ∧
          ('%' ∉ auth → ∀ c ∈ host, c ∈ auth) ∧
          path.length ≤ pp.length ∧ ('%' ∈ pp → path.length + 2 ≤ pp.length) ∧
          ('%' ∉ pp → path = pp)) := by
  unfold url.parse at h
  split_ifs at h with hctl hstar
  · injection h with h
    rw [← h] at hs
    exact absurd hs (by decide)
  · cases hg : url.getScheme u0 with
    | none => simp [hg] at h
    | some sr =>
      obtain ⟨s0, r0⟩ := sr
      simp only [hg] at h
      obtain ⟨a, q, hr0, ha, hq⟩ : ∃ a q, r0 = a ++ q ∧ '?' ∉ a ∧
          (q = [] ∨ q.head? = some '?') := by
        refine ⟨r0.takeWhile (fun x => x != '?'), r0.dropWhile (fun x => x != '?'),
          (List.takeWhile_append_dropWhile _ _).symm, url.takeWhile_not_mem '?' r0, ?_⟩
        rcases url.dropWhile_sep '?' r0 with h0 | ⟨t, ht⟩
        · exact Or.inl h0
        · exact Or.inr (by rw [ht]; rfl)
      subst hr0
      obtain ⟨hrest, -⟩ := url.rest_of_query a q ha hq
      simp only [Bool.and_eq_true, decide_eq_true_eq, beq_iff_eq] at hrest h
      rw [hrest] at h
      have hscheme : url.toLower s0 = "go-get".data := by
        split_ifs at h
        all_goals
          first
            | (cases h
               done)
            | (injection h with h
               rw [← h] at hs
               exact congrArg String.data hs)
            | exact congrArg String.data ((url.parseHier_scheme _ _ _ _ _ h).symm.trans hs)
      obtain ⟨hlen, hnoq⟩ := url.toLower_goget_inv s0 hscheme
      have hs0 : s0 ≠ [] := by
        intro e
        rw [e] at hlen
        simp at hlen
      have hu0 : u0 = s0 ++ ':' :: (a ++ q) := by
        have := url.getSchemeLoop_spec u0 true [] u0 s0 (a ++ q) hg hs0
        simpa using this
      have hne : url.toLower s0 ≠ [] := by
        rw [hscheme]
        decide
      refine ⟨s0, a, q, hu0, hlen, hnoq, ha, hq, ?_⟩
      split_ifs at h
      all_goals
        first
          | (cases h
             done)
          | exact url.parseHier_ok _ _ _ _ _ h hne
          | (left
             have c1 : a.head? ≠ some '/' := by assumption
             intro e
             apply c1
             cases a with
             | nil => simp at e
             | cons x xs =>
               simp only [List.take_succ_cons, List.cons.injEq] at e
               simp [e.1])

/-- The text that `url.Parse` hands to `parse` and the fragment it cuts off. -/
theorem url.Parse_shape (m : String) (u : URL) (h : url.Parse m = .ok u) :
    ∃ u0 tailf u', m.data = u0 ++ tailf ∧ '#' ∉ u0 ∧ (tailf = [] ∨ tailf.head? = some '#') ∧
      url.parse u0 = .ok u' ∧ u'.Scheme = u.Scheme ∧ u'.Host = u.Host ∧ u'.Path = u.Path := by
  unfold url.Parse at h
  rcases url.cut_spec '#' m.data with ⟨hno, hcut⟩ | ⟨a, b, hm, hno, hcut⟩
  · rw [hcut] at h
    cases hp : url.parse m.data with
    | error e => simp [hp] at h
    | ok u' =>
      simp only [hp, if_true] at h
      injection h with h
      subst h
      exact ⟨m.data, [], u', by simp, hno, Or.inl rfl, hp, rfl, rfl, rfl⟩
  · rw [hcut] at h
    cases hp : url.parse a with
    | error e => simp [hp] at h
    | ok u' =>
      simp only [hp] at h
      refine ⟨a, '#' :: b, u', hm, hno, Or.inr rfl, hp, ?_⟩
      split_ifs at h
      · injection h with h
        subst h
        exact ⟨rfl, rfl, rfl⟩
      · split at h
        · cases h
        · injection h with h
          subst h
          exact ⟨rfl, rfl, rfl⟩

theorem url.drop_scheme (s0 X : List Char) (c : Char) (h : s0.length = 6) :
    (s0 ++ c :: X).drop 7 = X := by
  rcases s0 with _ | ⟨a1, _ | ⟨a2, _ | ⟨a3, _ | ⟨a4, _ | ⟨a5, _ | ⟨a6, _ | ⟨a7, r⟩⟩⟩⟩⟩⟩⟩ <;>
    simp at h
  rfl

/-- An import string with a query or a fragment that `url.Parse` accepts with the scheme
`go-get` is never reproduced by `go-get://` followed by the joined host and path. -/
theorem url.goget_reconstruct_ne (m : String) (u : URL) (h : url.Parse m = .ok u)
    (hs : u.Scheme = "go-get") (hq : '?' ∈ m.data ∨ '#' ∈ m.data) :
    "go-get://" ++ path.Join [u.Host, u.Path] ≠ m := by
  obtain ⟨u0, tailf, u', hm, hnohash, htf, hp, hs', hhost, hpath⟩ := url.Parse_shape m u h
  obtain ⟨s0, rest, tailq, hu0, hlen, hnoq0, hnoq, htq, hcases⟩ :=
    url.parse_goget_shape u0 u' hp (hs'.trans hs)
  have hm2 : m.data = s0 ++ ':' :: (rest ++ (tailq ++ tailf)) := by
    rw [hm, hu0]
    simp
  have hresthash : '#' ∉ rest := by
    intro hmem
    apply hnohash
    rw [hu0]
    simp [hmem]
  have hT : (tailq ++ tailf).head? = some '?' ∨ (tailq ++ tailf).head? = some '#' := by
    rcases htq with htq | htq
    · subst htq
      rcases htf with htf | htf
      · subst htf
        exfalso
        simp only [List.append_nil] at hm2 hm
        rcases hq with hq | hq
        · rw [hm2] at hq
          simp only [List.mem_append, List.mem_cons] at hq
          rcases hq with hq | hq | hq
          · exact hnoq0 hq
          · exact absurd hq (by decide)
          · exact hnoq hq
        · rw [hm] at hq
          exact hnohash hq
      · right
        simpa using htf
    · left
      cases tailq with
      | nil => simp at htq
      | cons c t => simpa using htq
  obtain ⟨c, T, hTc, hc⟩ : ∃ c T, tailq ++ tailf = c :: T ∧ (c = '?' ∨ c = '#') := by
    cases hTT : tailq ++ tailf with
    | nil => rw [hTT] at hT; simp at hT
    | cons c T =>
      rw [hTT] at hT
      simp only [List.head?_cons, Option.some.injEq] at hT
      exact ⟨c, T, rfl, hT⟩
  rw [hTc] at hm2
  have hcne : c ≠ '/' ∧ c ≠ '.' := by
    rcases hc with hc | hc <;> subst hc <;> decide
  have hcrest : c ∉ rest := by
    rcases hc with hc | hc
    · rw [hc]; exact hnoq
    · rw [hc]; exact hresthash
  intro e
  have hdata : "go-get://".data ++ path.joinChars [u.Host.data, u.Path.data] =
      s0 ++ ':' :: (rest ++ c :: T) := by
    rw [← hm2, ← e]
    rfl
  have hJ : '/' :: '/' :: path.joinChars [u.Host.data, u.Path.data] = rest ++ c :: T := by
    have := congrArg (List.drop 7) hdata
    rw [url.drop_scheme s0 _ ':' hlen] at this
    exact this
  rcases hcases with hnot | ⟨auth, pp, host, pth, hrest, hH, hP, a1, a2, a3, p1, p2, p3⟩
  · rcases rest with _ | ⟨x, _ | ⟨y, r⟩⟩
    · simp only [List.nil_append, List.cons.injEq] at hJ
      exact hcne.1 hJ.1.symm
    · simp only [List.cons_append, List.nil_append, List.cons.injEq] at hJ
      exact hcne.1 hJ.2.1.symm
    · simp only [List.cons_append, List.cons.injEq] at hJ
      apply hnot
      simp [← hJ.1, ← hJ.2.1]
  · rw [← hhost] at hJ
    rw [← hpath] at hJ
    rw [hH, hP, hrest] at hJ
    simp only [List.cons_append, List.cons.injEq, true_and, List.append_assoc] at hJ
    have hlenJ := path.joinChars_pair_length host pth
    by_cases hpct : '%' ∈ auth ∨ '%' ∈ pp
    · have hl := congrArg List.length hJ
      simp only [List.length_append, List.length_cons] at hl
      rcases hpct with hpct | hpct
      · have := a2 hpct
        omega
      · have := p2 hpct
        omega
    · simp only [not_or] at hpct
      have hmem : c ∈ path.joinChars [host, pth] := by
        rw [hJ]
        simp
      have hsub : ∀ x, x ∈ auth ∨ x ∈ pp → x ∈ rest := by
        intro x hx
        rw [hrest]
        simp only [List.mem_cons, List.mem_append]
        exact Or.inr (Or.inr hx)
      rcases path.joinChars_mem _ _ hmem with ⟨e0, he0, hce⟩ | hcs | hcs
      · simp only [List.mem_cons, List.mem_singleton, List.not_mem_nil, or_false] at he0
        rcases he0 with he0 | he0
        · subst he0
          exact hcrest (hsub c (Or.inl (a3 hpct.1 c hce)))
        · subst he0
          rw [p3 hpct.2] at hce
          exact hcrest (hsub c (Or.inr hce))
      · exact hcne.1 hcs
      · exact hcne.2 hcs

/-! ### Command translation, `run` and `start` -/

/-- C1: for every string command `s` and every builtin `b`, `argToCmd b s` succeeds with
exactly the three-element argument vector `["bash", "-c", s]`, the string being passed
through unchanged. -/
theorem argToCmd_string (b : Builtin) (s : String) :
    argToCmd b (Value.String s) = .ok ["bash", "-c", s] := by
  rfl

/-- C2: when the command value `v` handed to `run` or `start` is not a plain string, both
fail with the error that carries the name of the builtin and the supplied value, and the
state is returned as it was: nothing is appended to the trace, so neither `RunWithIO` nor
`StartWithIO` has been called. -/
theorem run_start_reject_non_string {W : Type} (p : Petsitter W) (sys : Sys W) (t : Thread)
    (fn : Builtin) (args : List Value) (kwargs : List (String × Value)) (st : State W)
    (v : Value) (hunpack : UnpackArgs "cmdV" args kwargs "cmdV" = .ok v)
    (hv : ∀ s, v ≠ Value.String s) :
    p.run sys t fn args kwargs st = (.error (Error.expectsString fn.Name v), st) ∧
    p.start sys t fn args kwargs st = (.error (Error.expectsString fn.Name v), st) := by
  have harg : argToCmd fn v = .error (Error.expectsString fn.Name v) := by
    cases v with
    | String s => exact absurd rfl (hv s)
    | _ => rfl
  constructor
  · simp only [Petsitter.run, hunpack, harg]
  · simp only [Petsitter.start, hunpack, harg]

/-- Witness of C2: a list of two strings passed to `run` and `start`. -/
theorem run_start_reject_non_string_witness :
    (Petsitter.mk ⟨1⟩ ⟨2⟩ ⟨fun _ _ _ _ w => (none, w), fun _ _ _ _ w => (.ok ⟨⟨7⟩⟩, w)⟩ :
        Petsitter Unit).run
      ⟨fun _ => "/", fun _ _ => .ok ⟨0⟩, fun _ w => (.ok "/", w), fun _ _ w => (.ok [], w)⟩
      ⟨[]⟩ ⟨"run"⟩ [Value.List [Value.String "echo", Value.String "hi"]] [] ⟨(), []⟩ =
      (.error (Error.expectsString "run"
        (Value.List [Value.String "echo", Value.String "hi"])), ⟨(), []⟩) ∧
    (Petsitter.mk ⟨1⟩ ⟨2⟩ ⟨fun _ _ _ _ w => (none, w), fun _ _ _ _ w => (.ok ⟨⟨7⟩⟩, w)⟩ :
        Petsitter Unit).start
      ⟨fun _ => "/", fun _ _ => .ok ⟨0⟩, fun _ w => (.ok "/", w), fun _ _ w => (.ok [], w)⟩
      ⟨[]⟩ ⟨"run"⟩ [Value.List [Value.String "echo", Value.String "hi"]] [] ⟨(), []⟩ =
      (.error (Error.expectsString "run"
        (Value.List [Value.String "echo", Value.String "hi"])), ⟨(), []⟩) :=
  run_start_reject_non_string _ _ _ ⟨"run"⟩ _ _ _ _ rfl (by intro s h; cases h)

/-- C3: for every string command `s`, `run` calls `RunWithIO` exactly once, with the
argument vector `["bash", "-c", s]`, the working directory and the sinks of the host (one
event is appended to the trace); it returns `None` without error if and only if the runner
reports no error, and otherwise it returns the error of the runner unchanged. -/
theorem run_string {W : Type} (p : Petsitter W) (sys : Sys W) (t : Thread) (fn : Builtin)
    (args : List Value) (kwargs : List (String × Value)) (st : State W) (s : String)
    (hunpack : UnpackArgs "cmdV" args kwargs "cmdV" = .ok (Value.String s)) :
    (p.run sys t fn args kwargs st).2 =
      ⟨(p.Runner.RunWithIO ["bash", "-c", s] (sys.Getwd st.world) p.Stdout p.Stderr st.world).2,
        st.trace ++ [Event.RunWithIO ["bash", "-c", s] (sys.Getwd st.world) p.Stdout p.Stderr]⟩ ∧
    ((p.run sys t fn args kwargs st).1 = .ok Value.None ↔
      (p.Runner.RunWithIO ["bash", "-c", s] (sys.Getwd st.world) p.Stdout p.Stderr st.world).1
        = none) ∧
    (∀ err,
      (p.Runner.RunWithIO ["bash", "-c", s] (sys.Getwd st.world) p.Stdout p.Stderr st.world).1
        = some err →
      (p.run sys t fn args kwargs st).1 = .error err) := by
  simp only [Petsitter.run, hunpack, argToCmd]
  rcases hr : p.Runner.RunWithIO ["bash", "-c", s] (sys.Getwd st.world) p.Stdout p.Stderr
    st.world with ⟨r, w⟩
  cases r with
  | none => simp [State.record]
  | some e => simp [State.record]

/-- Witness of C3: `run("echo hi")` with a runner that reports no error. -/
theorem run_string_witness :
    ((Petsitter.mk ⟨1⟩ ⟨2⟩ ⟨fun _ _ _ _ w => (none, w), fun _ _ _ _ w => (.ok ⟨⟨7⟩⟩, w)⟩ :
        Petsitter Unit).run
      ⟨fun _ => "/", fun _ _ => .ok ⟨0⟩, fun _ w => (.ok "/", w), fun _ _ w => (.ok [], w)⟩
      ⟨[]⟩ ⟨"run"⟩ [Value.String "echo hi"] [] ⟨(), []⟩).2.trace =
      [Event.RunWithIO ["bash", "-c", "echo hi"] "/" ⟨1⟩ ⟨2⟩] :=
  congrArg State.trace
    (run_string (Petsitter.mk ⟨1⟩ ⟨2⟩
      ⟨fun _ _ _ _ w => (none, w), fun _ _ _ _ w => (.ok ⟨⟨7⟩⟩, w)⟩ : Petsitter Unit)
      ⟨fun _ => "/", fun _ _ => .ok ⟨0⟩, fun _ w => (.ok "/", w), fun _ _ w => (.ok [], w)⟩
      ⟨[]⟩ ⟨"run"⟩ [Value.String "echo hi"] [] ⟨(), []⟩ "echo hi" rfl).1

/-! ### The module resolver -/

theorem execLocated_ok {W : Type} (p : Petsitter W) (sys : Sys W) (result : StringDict)
    (file : String) (info : FileInfo) (st : State W) (G : StringDict) (w : W)
    (hreg : info.IsRegular = true)
    (hexec : sys.ExecFile (p.newThread file) file st.world = (.ok G, w)) :
    p.execLocated sys result file info st =
      (.ok (G.foldl (fun r kv => r.set kv.1 kv.2) result),
        st.record (Event.ExecFile (p.newThread file) file) w) := by
  simp [Petsitter.execLocated, hreg, hexec]

theorem execLocated_ok_full {W : Type} (p : Petsitter W) (sys : Sys W) (result : StringDict)
    (file : String) (info : FileInfo) (st st' : State W) (ns : StringDict)
    (h : p.execLocated sys result file info st = (.ok ns, st')) :
    ∃ G w, sys.ExecFile (p.newThread file) file st.world = (.ok G, w) ∧
      ns = G.foldl (fun r kv => r.set kv.1 kv.2) result ∧
      st' = st.record (Event.ExecFile (p.newThread file) file) w := by
  unfold Petsitter.execLocated at h
  by_cases hreg : info.IsRegular = true
  · rcases hx : sys.ExecFile (p.newThread file) file st.world with ⟨r, w⟩
    cases r with
    | error e => simp [hreg, hx] at h
    | ok G =>
      simp only [hreg, hx] at h
      simp at h
      exact ⟨G, w, rfl, h.1.symm, h.2.symm⟩
  · simp [hreg] at h

theorem execPetsFileAt_ok_cases {W : Type} (p : Petsitter W) (sys : Sys W) (module : String)
    (isMissingOk : Bool) (st st' : State W) (ns : StringDict)
    (h : p.execPetsFileAt sys module isMissingOk st = (.ok ns, st')) :
    (st' = st ∧ ns = [("dir", Value.String module)]) ∨
    ∃ file G w, (file = module ∨ file = path.Join [module, Petsfile]) ∧
      sys.ExecFile (p.newThread file) file st.world = (.ok G, w) ∧
      st' = st.record (Event.ExecFile (p.newThread file) file) w ∧
      ns = G.foldl (fun r kv => r.set kv.1 kv.2)
        (StringDict.set [] "dir" (Value.String module)) := by
  unfold Petsitter.execPetsFileAt at h
  cases hs : sys.Stat module st.world with
  | error err =>
    simp only [hs] at h
    split at h
    · simp at h
      exact Or.inl ⟨h.2.symm, h.1.symm⟩
    · simp at h
  | ok info =>
    simp only [hs] at h
    split at h
    · cases hs1 : sys.Stat (path.Join [module, Petsfile]) st.world with
      | error err =>
        simp only [hs1] at h
        split at h
        · simp at h
          exact Or.inl ⟨h.2.symm, h.1.symm⟩
        · simp at h
      | ok info1 =>
        simp only [hs1] at h
        obtain ⟨G, w, hx, hns, hst⟩ := execLocated_ok_full p sys _ _ _ _ _ _ h
        exact Or.inr ⟨_, G, w, Or.inr rfl, hx, hst, hns⟩
    · obtain ⟨G, w, hx, hns, hst⟩ := execLocated_ok_full p sys _ _ _ _ _ _ h
      exact Or.inr ⟨_, G, w, Or.inl rfl, hx, hst, hns⟩

theorem newThread_Local {W : Type} (p : Petsitter W) (f : String) :
    (p.newThread f).Local threadLocalSourceFile = some f := by
  simp [Petsitter.newThread, Thread.SetLocal, Thread.Local, List.lookup]

/-- C4: for every import string `m` that parses with an empty scheme, loaded from a thread
whose `sourceFile` is `f` (as every thread made by `newThread f` is), `load` is
`execPetsFileAt` at `filepath.Join(filepath.Dir(f), m)` with `isMissingOk = false`, whatever
the collaborators and the world (hence whatever the working directory); the source file
`/a/b/Petsfile` and the import `./c` give `/a/b/c`. -/
theorem load_local_target {W : Type} (p : Petsitter W) (sys : Sys W) (t : Thread)
    (m f : String) (st : State W) (u : URL) (hparse : url.Parse m = .ok u)
    (hscheme : u.Scheme = "") (hsrc : t.Local threadLocalSourceFile = some f) :
    p.load sys t m st = p.execPetsFileAt sys (filepath.Join [filepath.Dir f, m]) false st ∧
    (p.newThread f).Local threadLocalSourceFile = some f ∧
    filepath.Join [filepath.Dir "/a/b/Petsfile", "./c"] = "/a/b/c" := by
  refine ⟨?_, newThread_Local p f, by decide⟩
  simp [Petsitter.load, hparse, hscheme, hsrc]

/-- C5: when `execPetsFileAt` locates a regular manifest file (the path itself, or the
`Petsfile` inside it when the path is a directory) and its execution succeeds with globals
`G`, the returned namespace has exactly the keys `dir` and those of `G`, each once, maps every
key of `G` to its value in `G` (so a global named `dir` replaces the synthesized entry), and
maps `dir` to the path when `G` has no such key. -/
theorem execPetsFileAt_merge {W : Type} (p : Petsitter W) (sys : Sys W) (module : String)
    (isMissingOk : Bool) (st : State W) (file : String) (info finfo : FileInfo)
    (G : StringDict) (w : W)
    (hstat : sys.Stat module st.world = .ok info)
    (hloc : (info.IsDir = false ∧ file = module ∧ finfo = info) ∨
      (info.IsDir = true ∧ file = path.Join [module, Petsfile] ∧
        sys.Stat (path.Join [module, Petsfile]) st.world = .ok finfo))
    (hreg : finfo.IsRegular = true)
    (hexec : sys.ExecFile (p.newThread file) file st.world = (.ok G, w))
    (hG : G.keys.Nodup) :
    ∃ ns, (p.execPetsFileAt sys module isMissingOk st).1 = .ok ns ∧
      ns.keys.Nodup ∧
      (∀ k, k ∈ ns.keys ↔ k = "dir" ∨ k ∈ G.keys) ∧
      (∀ k, k ∈ G.keys → ns.get k = G.get k) ∧
      ("dir" ∉ G.keys → ns.get "dir" = some (Value.String module)) := by
  refine ⟨G.foldl (fun r kv => r.set kv.1 kv.2) (StringDict.set [] "dir" (Value.String module)),
    ?_, ?_, ?_, ?_, ?_⟩
  · rcases hloc with ⟨hd, hf, hi⟩ | ⟨hd, hf, hs1⟩
    · subst hf hi
      simp [Petsitter.execPetsFileAt, hstat, hd, execLocated_ok p sys _ _ _ _ G w hreg hexec]
    · subst hf
      simp [Petsitter.execPetsFileAt, hstat, hd, hs1,
        execLocated_ok p sys _ _ _ _ G w hreg hexec]
  · exact StringDict.nodup_keys_foldl _ _ (by simp [StringDict.set, StringDict.keys])
  · intro k
    rw [StringDict.mem_keys_foldl]
    simp [StringDict.set, StringDict.keys]
  · intro k hk
    exact StringDict.get_foldl_of_mem G _ k hG hk
  · intro hk
    rw [StringDict.get_foldl_of_not_mem G _ _ hk]
    simp [StringDict.set, StringDict.get_cons]

/-- Witness of C4: the import `./c` from the manifest `/a/b/Petsfile`. -/
theorem load_local_target_witness :
    Demo.petsitter.load Demo.sysFiles (Demo.petsitter.newThread "/a/b/Petsfile") "./c" ⟨(), []⟩
      = Demo.petsitter.execPetsFileAt Demo.sysFiles "/a/b/c" false ⟨(), []⟩ :=
  (load_local_target Demo.petsitter Demo.sysFiles (Demo.petsitter.newThread "/a/b/Petsfile")
    "./c" "/a/b/Petsfile" ⟨(), []⟩ ⟨"", "", none, "", "./c", false, "", ""⟩ rfl rfl
    (newThread_Local _ _)).1

/-- Witness of C5: a regular file whose manifest defines `x = 5`. -/
theorem execPetsFileAt_merge_witness :
    ∃ ns, (Demo.petsitter.execPetsFileAt Demo.sysFiles "/a/b/c" false ⟨(), []⟩).1 = .ok ns ∧
      ns.keys.Nodup ∧
      (∀ k, k ∈ ns.keys ↔ k = "dir" ∨ k ∈ StringDict.keys [("x", Value.Int 5)]) ∧
      (∀ k, k ∈ StringDict.keys [("x", Value.Int 5)] →
        ns.get k = StringDict.get [("x", Value.Int 5)] k) ∧
      ("dir" ∉ StringDict.keys [("x", Value.Int 5)] →
        ns.get "dir" = some (Value.String "/a/b/c")) :=
  execPetsFileAt_merge Demo.petsitter Demo.sysFiles "/a/b/c" false ⟨(), []⟩ "/a/b/c" ⟨420⟩ ⟨420⟩
    [("x", Value.Int 5)] () rfl (Or.inl ⟨by decide, rfl, rfl⟩) (by decide) rfl (by decide)

/-- C6 as stated fails: a manifest that defines a global named `dir` gets that value under
the key `dir` of its namespace, not the path that was resolved for it. -/
theorem dir_entry_shadowed :
    (Demo.petsitter.execPetsFileAt Demo.sysShadow "/a/b/c" false ⟨(), []⟩).1 =
      .ok [("dir", Value.String "elsewhere")] ∧
    StringDict.get [("dir", Value.String "elsewhere")] "dir" ≠ some (Value.String "/a/b/c") := by
  constructor
  · rfl
  · simp [StringDict.get_cons]

/-- C6, amended: every namespace `ns` returned by `execPetsFileAt` for the path `module` has
the key `dir`. Either no manifest was executed and `ns` is the placeholder that holds
`dir = module` alone, or exactly one manifest was executed (`module` itself or the `Petsfile`
inside it, as recorded in the trace) with globals `G`: then `dir` is mapped to `module` when
`G` has no key `dir`, and to the value of `dir` in `G` when it has one. For `load` the path
`module` is the directory answered by the remote loader (scheme `go-get`) or
`filepath.Join(filepath.Dir(sourceFile), module)` (empty scheme). -/
theorem namespace_dir {W : Type} (p : Petsitter W) (sys : Sys W) :
    (∀ (module : String) (isMissingOk : Bool) (st st' : State W) (ns : StringDict),
      p.execPetsFileAt sys module isMissingOk st = (.ok ns, st') →
      "dir" ∈ ns.keys ∧
      ((st' = st ∧ ns = [("dir", Value.String module)]) ∨
        ∃ file G w, (file = module ∨ file = path.Join [module, Petsfile]) ∧
          sys.ExecFile (p.newThread file) file st.world = (.ok G, w) ∧
          st' = st.record (Event.ExecFile (p.newThread file) file) w ∧
          ("dir" ∉ G.keys → ns.get "dir" = some (Value.String module)) ∧
          (G.keys.Nodup → "dir" ∈ G.keys → ns.get "dir" = G.get "dir"))) ∧
    (∀ (t : Thread) (m : String) (st st' : State W) (ns : StringDict),
      p.load sys t m st = (.ok ns, st') →
      ∃ (u : URL) (d : String) (st1 : State W), url.Parse m = .ok u ∧
        ((u.Scheme = "go-get" ∧ ∃ w0,
            sys.LoadGoRepo (path.Join [u.Host, u.Path]) st.world = (.ok d, w0) ∧
            st1 = st.record (Event.LoadGoRepo (path.Join [u.Host, u.Path])) w0) ∨
          (u.Scheme = "" ∧ st1 = st ∧ ∃ f, t.Local threadLocalSourceFile = some f ∧
            d = filepath.Join [filepath.Dir f, m])) ∧
        "dir" ∈ ns.keys ∧
        ((st' = st1 ∧ ns = [("dir", Value.String d)]) ∨
          ∃ file G w, (file = d ∨ file = path.Join [d, Petsfile]) ∧
            sys.ExecFile (p.newThread file) file st1.world = (.ok G, w) ∧
            st' = st1.record (Event.ExecFile (p.newThread file) file) w ∧
            ("dir" ∉ G.keys → ns.get "dir" = some (Value.String d)) ∧
            (G.keys.Nodup → "dir" ∈ G.keys → ns.get "dir" = G.get "dir"))) := by
  have key : ∀ (module : String) (isMissingOk : Bool) (st st' : State W) (ns : StringDict),
      p.execPetsFileAt sys module isMissingOk st = (.ok ns, st') →
      "dir" ∈ ns.keys ∧
      ((st' = st ∧ ns = [("dir", Value.String module)]) ∨
        ∃ file G w, (file = module ∨ file = path.Join [module, Petsfile]) ∧
          sys.ExecFile (p.newThread file) file st.world = (.ok G, w) ∧
          st' = st.record (Event.ExecFile (p.newThread file) file) w ∧
          ("dir" ∉ G.keys → ns.get "dir" = some (Value.String module)) ∧
          (G.keys.Nodup → "dir" ∈ G.keys → ns.get "dir" = G.get "dir")) := by
    intro module isMissingOk st st' ns h
    rcases execPetsFileAt_ok_cases p sys module isMissingOk st st' ns h with
      ⟨hst, hns⟩ | ⟨file, G, w, hfile, hx, hst, hns⟩
    · subst hns
      exact ⟨by simp [StringDict.keys], Or.inl ⟨hst, rfl⟩⟩
    · subst hns
      refine ⟨?_, Or.inr ⟨file, G, w, hfile, hx, hst, fun hno => ?_, fun hG hmem => ?_⟩⟩
      · rw [StringDict.mem_keys_foldl]
        exact Or.inl (by simp [StringDict.set, StringDict.keys])
      · rw [StringDict.get_foldl_of_not_mem G _ _ hno]
        simp [StringDict.set, StringDict.get_cons]
      · exact StringDict.get_foldl_of_mem G _ _ hG hmem
  refine ⟨key, ?_⟩
  intro t m st st' ns h
  unfold Petsitter.load at h
  cases hp : url.Parse m with
  | error e => simp [hp] at h
  | ok u =>
    simp only [hp] at h
    by_cases hs : u.Scheme = "go-get"
    · simp only [hs, if_true] at h
      split at h
      · simp at h
      · rcases hl : sys.LoadGoRepo (path.Join [u.Host, u.Path]) st.world with ⟨r, w0⟩
        cases r with
        | error e => simp [hl] at h
        | ok d =>
          simp only [hl] at h
          obtain ⟨h1, h2⟩ := key _ _ _ _ _ h
          exact ⟨u, d, _, rfl, Or.inl ⟨hs, w0, hl, rfl⟩, h1, h2⟩
    · simp only [hs, if_false] at h
      by_cases hs0 : u.Scheme = ""
      · simp only [hs0, if_true] at h
        cases hl : t.Local threadLocalSourceFile with
        | none => simp [hl] at h
        | some f =>
          simp only [hl] at h
          obtain ⟨h1, h2⟩ := key _ _ _ _ _ h
          exact ⟨u, _, st, rfl, Or.inr ⟨hs0, rfl, f, rfl, rfl⟩, h1, h2⟩
      · simp [hs0] at h

/-- Witness of C6 (amended): the namespace of a manifest that defines only `x`. -/
theorem namespace_dir_witness :
    "dir" ∈ StringDict.keys [("dir", Value.String "/a/b/c"), ("x", Value.Int 5)] ∧
    (((⟨(), [Event.ExecFile (Demo.petsitter.newThread "/a/b/c") "/a/b/c"]⟩ : State Unit) =
          ⟨(), []⟩ ∧
        [("dir", Value.String "/a/b/c"), ("x", Value.Int 5)] =
          [("dir", Value.String "/a/b/c")]) ∨
      ∃ file G w, (file = "/a/b/c" ∨ file = path.Join ["/a/b/c", Petsfile]) ∧
        Demo.sysFiles.ExecFile (Demo.petsitter.newThread file) file () = (.ok G, w) ∧
        (⟨(), [Event.ExecFile (Demo.petsitter.newThread "/a/b/c") "/a/b/c"]⟩ : State Unit) =
          State.record ⟨(), []⟩ (Event.ExecFile (Demo.petsitter.newThread file) file) w ∧
        ("dir" ∉ G.keys →
          StringDict.get [("dir", Value.String "/a/b/c"), ("x", Value.Int 5)] "dir" =
            some (Value.String "/a/b/c")) ∧
        (G.keys.Nodup → "dir" ∈ G.keys →
          StringDict.get [("dir", Value.String "/a/b/c"), ("x", Value.Int 5)] "dir" =
            G.get "dir")) :=
  (namespace_dir Demo.petsitter Demo.sysFiles).1 "/a/b/c" false ⟨(), []⟩
    ⟨(), [Event.ExecFile (Demo.petsitter.newThread "/a/b/c") "/a/b/c"]⟩
    [("dir", Value.String "/a/b/c"), ("x", Value.Int 5)] rfl

/-- C7: for a `go-get` import that passes the check and whose remote loader answers the
directory `d`, if `d` does not exist, or is a directory without an entry `Petsfile`, then
`load` returns without error the namespace that holds `dir = d` and nothing else; the only
collaborator call made is the one to the loader, so no manifest is executed. -/
theorem load_goget_missing {W : Type} (p : Petsitter W) (sys : Sys W) (t : Thread)
    (m : String) (st : State W) (u : URL) (d : String) (w : W)
    (hparse : url.Parse m = .ok u) (hscheme : u.Scheme = "go-get")
    (hround : "go-get://" ++ path.Join [u.Host, u.Path] = m)
    (hload : sys.LoadGoRepo (path.Join [u.Host, u.Path]) st.world = (.ok d, w))
    (hmissing : (∃ err, sys.Stat d w = .error err ∧ err.IsNotExist = true) ∨
      (∃ info err, sys.Stat d w = .ok info ∧ info.IsDir = true ∧
        sys.Stat (path.Join [d, Petsfile]) w = .error err ∧ err.IsNotExist = true)) :
    p.load sys t m st =
      (.ok [("dir", Value.String d)],
        ⟨w, st.trace ++ [Event.LoadGoRepo (path.Join [u.Host, u.Path])]⟩) := by
  rcases hmissing with ⟨err, hs, he⟩ | ⟨info, err, hs, hd, hs1, he⟩
  · simp [Petsitter.load, hparse, hscheme, hround, hload, Petsitter.execPetsFileAt,
      State.record, hs, he, StringDict.set]
  · simp [Petsitter.load, hparse, hscheme, hround, hload, Petsitter.execPetsFileAt,
      State.record, hs, hd, hs1, he, StringDict.set]

/-- Witness of C7: a remote module whose directory was not materialised. -/
theorem load_goget_missing_witness :
    Demo.petsitter.load Demo.sysEmpty ⟨[]⟩ "go-get://github.com/windmilleng/blorg-frontend"
      ⟨(), []⟩ =
      (.ok [("dir", Value.String "/gopath/src/mod")],
        ⟨(), [Event.LoadGoRepo "github.com/windmilleng/blorg-frontend"]⟩) :=
  load_goget_missing Demo.petsitter Demo.sysEmpty ⟨[]⟩
    "go-get://github.com/windmilleng/blorg-frontend" ⟨(), []⟩
    ⟨"go-get", "", none, "github.com", "/windmilleng/blorg-frontend", false, "", ""⟩
    "/gopath/src/mod" () rfl rfl (by decide) rfl
    (Or.inl ⟨Error.external "no such file or directory" true, rfl, rfl⟩)

/-- C8: for a local import (empty scheme) whose resolved path does not exist, or is a
directory without an entry `Petsfile`, `load` fails with the not-exist error of `os.Stat`,
returns no namespace, and leaves the state as it was, so no manifest is executed. -/
theorem load_local_missing {W : Type} (p : Petsitter W) (sys : Sys W) (t : Thread)
    (m f : String) (st : State W) (u : URL) (err : Error)
    (hparse : url.Parse m = .ok u) (hscheme : u.Scheme = "")
    (hsrc : t.Local threadLocalSourceFile = some f)
    (_herr : err.IsNotExist = true)
    (hmissing : sys.Stat (filepath.Join [filepath.Dir f, m]) st.world = .error err ∨
      (∃ info, sys.Stat (filepath.Join [filepath.Dir f, m]) st.world = .ok info ∧
        info.IsDir = true ∧
        sys.Stat (path.Join [filepath.Join [filepath.Dir f, m], Petsfile]) st.world
          = .error err)) :
    p.load sys t m st = (.error err, st) := by
  rcases hmissing with hs | ⟨info, hs, hd, hs1⟩
  · simp [Petsitter.load, hparse, hscheme, hsrc, Petsitter.execPetsFileAt, hs]
  · simp [Petsitter.load, hparse, hscheme, hsrc, Petsitter.execPetsFileAt, hs, hd, hs1]

/-- Witness of C8: the import `./c` in a file system without that path. -/
theorem load_local_missing_witness :
    Demo.petsitter.load Demo.sysEmpty (Demo.petsitter.newThread "/a/b/Petsfile") "./c"
      ⟨(), []⟩ = (.error (Error.external "no such file or directory" true), ⟨(), []⟩) :=
  load_local_missing Demo.petsitter Demo.sysEmpty (Demo.petsitter.newThread "/a/b/Petsfile")
    "./c" "/a/b/Petsfile" ⟨(), []⟩ ⟨"", "", none, "", "./c", false, "", ""⟩ _ rfl rfl
    (newThread_Local _ _) rfl (Or.inl rfl)

/-! ### Import strings of the scheme `go-get` -/

/-- The guard of the `go-get` branch lets cleaned import strings through: for every import
string `go-get://host/s1/.../sn` without query, fragment and escape, whose host is a sequence
of name bytes and whose path segments are sequences of path bytes, all non-empty and other
than `.` and `..`, `load` parses it, reconstructs exactly the input, and calls the remote
loader with the import path `host/s1/.../sn`. -/
theorem load_goget_cleaned {W : Type} (p : Petsitter W) (sys : Sys W) (t : Thread)
    (st : State W) (h : List Char) (segs : List (List Char))
    (hh : GoGet.isCleanHost h = true) (hsegs : ∀ s ∈ segs, GoGet.isSegment s = true) :
    url.Parse (GoGet.importString (h ++ GoGet.pathOf segs)) =
      .ok ⟨"go-get", "", none, String.mk h, String.mk (GoGet.pathOf segs), false, "", ""⟩ ∧
    "go-get://" ++ path.Join [String.mk h, String.mk (GoGet.pathOf segs)] =
      GoGet.importString (h ++ GoGet.pathOf segs) ∧
    p.load sys t (GoGet.importString (h ++ GoGet.pathOf segs)) st =
      (match sys.LoadGoRepo (String.mk (h ++ GoGet.pathOf segs)) st.world with
        | (.error err, w) =>
          (.error (Error.load err),
            st.record (Event.LoadGoRepo (String.mk (h ++ GoGet.pathOf segs))) w)
        | (.ok dir, w) =>
          p.execPetsFileAt sys dir true
            (st.record (Event.LoadGoRepo (String.mk (h ++ GoGet.pathOf segs))) w)) := by
  have hseg := GoGet.cleanHost_segment h hh
  obtain ⟨fq, rq, fr, hparse, hplain⟩ :=
    url.Parse_goget h (GoGet.pathOf segs) [] [] (GoGet.cleanHost_host h hh)
      (GoGet.path_of_segments segs hsegs) (GoGet.pathOf_head segs) (Or.inl rfl) (Or.inl rfl)
  obtain ⟨hfq, hrq, hfr⟩ := hplain rfl rfl
  subst hfq hrq hfr
  simp only [List.append_nil] at hparse
  have hjoin : path.Join [String.mk h, String.mk (GoGet.pathOf segs)] =
      String.mk (h ++ GoGet.pathOf segs) := by
    rw [path.Join_mk, path.joinChars_segments h segs hseg hsegs]
  have hround : "go-get://" ++ path.Join [String.mk h, String.mk (GoGet.pathOf segs)] =
      GoGet.importString (h ++ GoGet.pathOf segs) := by
    rw [GoGet.reconstruct_data, path.joinChars_segments h segs hseg hsegs]
  refine ⟨hparse, hround, ?_⟩
  have hround2 := hround
  rw [hjoin] at hround2
  unfold Petsitter.load
  simp only [hparse, hjoin, ↓reduceIte, ne_eq, hround2, not_true_eq_false]

/-- C9, at the failing input: `go-get://github.com/windmilleng/pets/` is a host followed by
a path, without query and without fragment, and it parses; the claim says that the
reconstructed string equals the input and that the remote loader is called. But `path.Join`
drops the final `/`, the reconstructed string differs from the input, and `load` rejects the
string with the error about query or fragment, without calling the remote loader. -/
theorem load_goget_trailing_slash :
    GoGet.isHost "github.com".data = true ∧
    GoGet.isPath "/windmilleng/pets/".data = true ∧
    GoGet.importString ("github.com".data ++ "/windmilleng/pets/".data) =
      "go-get://github.com/windmilleng/pets/" ∧
    url.Parse "go-get://github.com/windmilleng/pets/" =
      .ok ⟨"go-get", "", none, "github.com", "/windmilleng/pets/", false, "", ""⟩ ∧
    "go-get://" ++ path.Join ["github.com", "/windmilleng/pets/"] =
      "go-get://github.com/windmilleng/pets" ∧
    "go-get://" ++ path.Join ["github.com", "/windmilleng/pets/"] ≠
      "go-get://github.com/windmilleng/pets/" ∧
    Demo.petsitter.load Demo.sysFiles ⟨[]⟩ "go-get://github.com/windmilleng/pets/" ⟨(), []⟩ =
      (.error (Error.text "go-get URLs may not contain query or fragment info"), ⟨(), []⟩) :=
  ⟨by decide, by decide, by decide, rfl, by decide, by decide, rfl⟩

/-- The cleaned import string `go-get://github.com/windmilleng/pets` passes the guard. -/
theorem load_goget_cleaned_witness :
    url.Parse "go-get://github.com/windmilleng/pets" =
      .ok ⟨"go-get", "", none, "github.com", "/windmilleng/pets", false, "", ""⟩ ∧
    "go-get://" ++ path.Join ["github.com", "/windmilleng/pets"] =
      "go-get://github.com/windmilleng/pets" ∧
    Demo.petsitter.load Demo.sysEmpty ⟨[]⟩ "go-get://github.com/windmilleng/pets" ⟨(), []⟩ =
      Demo.petsitter.execPetsFileAt Demo.sysEmpty "/gopath/src/mod" true
        ⟨(), [Event.LoadGoRepo "github.com/windmilleng/pets"]⟩ :=
  load_goget_cleaned Demo.petsitter Demo.sysEmpty ⟨[]⟩ ⟨(), []⟩ "github.com".data
    ["windmilleng".data, "pets".data] (by decide) (by decide)

/-- C10, amended: `load` returns the error of `url.Parse` when the import string does not
parse; and for every import string that parses with the scheme `go-get` and carries a
query (`?`) or a fragment (`#`), `load` fails with the error "go-get URLs may not contain
query or fragment info". In both cases the state is returned as it was: the remote loader is
not called and no manifest is executed. -/
theorem load_goget_query_fragment {W : Type} (p : Petsitter W) (sys : Sys W) (t : Thread)
    (st : State W) (m : String) :
    (∀ err, url.Parse m = .error err → p.load sys t m st = (.error err, st)) ∧
    (∀ u, url.Parse m = .ok u → u.Scheme = "go-get" → ('?' ∈ m.data ∨ '#' ∈ m.data) →
      p.load sys t m st =
        (.error (Error.text "go-get URLs may not contain query or fragment info"), st)) := by
  constructor
  · intro err hparse
    simp only [Petsitter.load, hparse]
  · intro u hparse hs hq
    have hne := url.goget_reconstruct_ne m u hparse hs hq
    unfold Petsitter.load
    simp only [hparse, hs, ↓reduceIte, ne_eq, hne, not_false_eq_true]

/-- C10 as stated fails: the import string `go-get://github.com/windmilleng/pets#%zz` carries
a fragment, but its escape `%zz` is malformed, so `url.Parse` refuses it and `load` returns
that error, not the error about query or fragment. -/
theorem load_goget_bad_fragment :
    Demo.petsitter.load Demo.sysFiles ⟨[]⟩ "go-get://github.com/windmilleng/pets#%zz" ⟨(), []⟩ =
      (.error (Error.url "parse" "go-get://github.com/windmilleng/pets#%zz"
        "invalid URL escape %zz"), ⟨(), []⟩) ∧
    Error.url "parse" "go-get://github.com/windmilleng/pets#%zz" "invalid URL escape %zz" ≠
      Error.text "go-get URLs may not contain query or fragment info" :=
  ⟨rfl, by intro h; cases h⟩

/-- Witness of C10 (amended): a port, an escaped path, a query and a fragment. -/
theorem load_goget_query_fragment_witness :
    Demo.petsitter.load Demo.sysFiles ⟨[]⟩
      "go-get://localhost:8080/windmilleng/my%20pets?ref=main#readme" ⟨(), []⟩ =
      (.error (Error.text "go-get URLs may not contain query or fragment info"), ⟨(), []⟩) :=
  (load_goget_query_fragment Demo.petsitter Demo.sysFiles ⟨[]⟩ ⟨(), []⟩
    "go-get://localhost:8080/windmilleng/my%20pets?ref=main#readme").2
    ⟨"go-get", "", none, "localhost:8080", "/windmilleng/my pets", false, "ref=main", "readme"⟩
    rfl rfl (Or.inl (by decide))

end Mill
